import Mathlib

set_option maxRecDepth 100000

/-!
Shallow embedding of the rust-proxy HLS relay (src/src/main.rs) and proofs
about its request pipeline.

Modelling conventions:
* A Rust `&str`/`String` is a UTF-8 byte sequence; we model it as `List Nat`
  with every element `< 256`.  ASCII literal strings are written through
  `bytes`, which performs the UTF-8 expansion per character.
* The `url` crate's `Url::parse` / `Url::join` (WHATWG URL parsing) are
  modelled for the hierarchical `scheme://host/path?query#fragment` shape
  that the proxy traffics in: scheme and host are lower-cased, dot segments
  (`.` / `..`) are removed, ports are kept as part of the host bytes, and
  percent-encoding of exotic path bytes is not performed.  `Url::parse`
  fails on inputs without a `<scheme>://` prefix, which is exactly the
  absolute/relative discrimination `get_url` relies on.
* `urlencoding::encode` percent-encodes every byte except ASCII
  alphanumerics and `-`, `_`, `.`, `~`, with upper-case hex digits.
* `regex` crate semantics for `(?i)(URI|URL)="([^"]+)"`: leftmost match,
  and `Regex::replace` with a string replacer performs `$`-group expansion
  on the replacement text (`$0`..., `${name}`, `$$`, unknown groups expand
  to the empty string, a `$` not followed by a name is literal).
* The actix/reqwest plumbing is modelled by passing the outcome of the
  upstream fetch to the handler as an explicit argument; returning early
  before that argument is inspected models "no upstream request is made".
-/

namespace RustProxy

/-- UTF-8 byte expansion of a single code point. -/
def charUtf8 (n : Nat) : List Nat :=
  if n < 0x80 then [n]
  else if n < 0x800 then [0xC0 + n / 0x40, 0x80 + n % 0x40]
  else if n < 0x10000 then
    [0xE0 + n / 0x1000, 0x80 + (n / 0x40) % 0x40, 0x80 + n % 0x40]
  else
    [0xF0 + n / 0x40000, 0x80 + (n / 0x1000) % 0x40, 0x80 + (n / 0x40) % 0x40,
      0x80 + n % 0x40]

/-- The UTF-8 bytes of a string literal, as natural numbers. -/
def bytes (s : String) : List Nat :=
  (s.data.map (fun c => charUtf8 c.toNat)).flatten

/-- ASCII letter test on a byte. -/
def isAlphaB (b : Nat) : Bool :=
  decide ((65 ≤ b ∧ b ≤ 90) ∨ (97 ≤ b ∧ b ≤ 122))

/-- ASCII digit test on a byte. -/
def isDigitB (b : Nat) : Bool :=
  decide (48 ≤ b ∧ b ≤ 57)

/-- ASCII lower-casing of a byte (as done by the url crate on schemes/hosts
and by `HeaderName` on header names). -/
def lowerB (b : Nat) : Nat :=
  if 65 ≤ b ∧ b ≤ 90 then b + 32 else b

/-- Bytes allowed in a URL scheme after the first letter: `a-z A-Z 0-9 + - .`. -/
def schemeByte (b : Nat) : Bool :=
  isAlphaB b || isDigitB b || decide (b = 43) || decide (b = 45) || decide (b = 46)

/-- Authority terminators: `/`, `?`, `#`. -/
def notDelim (b : Nat) : Bool :=
  !(decide (b = 47) || decide (b = 63) || decide (b = 35))

/-- Path terminators: `?`, `#`. -/
def notQF (b : Nat) : Bool :=
  !(decide (b = 63) || decide (b = 35))

/-- Model of a parsed absolute URL (url crate `Url`), restricted to the
hierarchical `scheme://host/path?query#fragment` shape. The path is the
list of `/`-separated segments; `[[]]` is the root path `/`. -/
structure Url where
  scheme : List Nat
  host : List Nat
  path : List (List Nat)
  query : Option (List Nat)
  fragment : Option (List Nat)
deriving DecidableEq

/-- Split a byte list at every occurrence of the byte `c`; always returns at
least one (possibly empty) chunk, and chunks never contain `c`. -/
def splitOnB (c : Nat) : List Nat → List (List Nat)
  | [] => [[]]
  | b :: rest =>
    if b = c then [] :: splitOnB c rest
    else
      match splitOnB c rest with
      | [] => [[b]]
      | chunk :: chunks => (b :: chunk) :: chunks

/-- Join byte lists with a separator (Rust `Vec::join` / serialization of
URL path segments). -/
def joinSep (sep : List Nat) : List (List Nat) → List Nat
  | [] => []
  | [x] => x
  | x :: xs => x ++ sep ++ joinSep sep xs

/-- WHATWG dot-segment removal over a segment list, with an accumulator of
already-emitted segments in reverse order.  `..` pops a segment, `.` is
dropped; when either ends the path an empty segment is appended so the
serialized path keeps its trailing slash. -/
def normPath (acc : List (List Nat)) : List (List Nat) → List (List Nat)
  | [] => acc.reverse
  | s :: rest =>
    if s = [46, 46] then
      match rest with
      | [] => (([] : List Nat) :: acc.tail).reverse
      | _ => normPath acc.tail rest
    else if s = [46] then
      match rest with
      | [] => (([] : List Nat) :: acc).reverse
      | _ => normPath acc rest
    else normPath (s :: acc) rest

/-- Parse `query#fragment` (the bytes following a `?`). -/
def parseQueryFrag (r : List Nat) : List Nat × Option (List Nat) :=
  let q := r.takeWhile (fun b => !(decide (b = 35)))
  match r.drop q.length with
  | [] => (q, none)
  | _ :: f => (q, some f)

/-- Parse the `path?query#fragment` bytes that follow `scheme://host/`. -/
def parsePath (sch host : List Nat) (r : List Nat) : Url :=
  let pp := r.takeWhile notQF
  let segs := normPath [] (splitOnB 47 pp)
  match r.drop pp.length with
  | [] => ⟨sch, host, segs, none, none⟩
  | 63 :: r2 =>
    match parseQueryFrag r2 with
    | (q, fr) => ⟨sch, host, segs, some q, fr⟩
  | _ :: r2 => ⟨sch, host, segs, none, some r2⟩

/-- Parse the bytes following `scheme://`: authority, then path/query/fragment. -/
def parseAfterScheme (sch : List Nat) (r : List Nat) : Option Url :=
  match r.takeWhile notDelim, r.drop (r.takeWhile notDelim).length with
  | [], _ => none
  | h :: hs, rest =>
    let host := (h :: hs).map lowerB
    match rest with
    | [] => some ⟨sch, host, [[]], none, none⟩
    | 47 :: r2 => some (parsePath sch host r2)
    | 63 :: r2 =>
      match parseQueryFrag r2 with
      | (q, fr) => some ⟨sch, host, [[]], some q, fr⟩
    | _ :: r2 => some ⟨sch, host, [[]], none, some r2⟩

/-- Model of `Url::parse`: succeeds exactly on `scheme://...` inputs whose
authority is nonempty; scheme and host are lower-cased. -/
def parseUrl (s : List Nat) : Option Url :=
  match s.takeWhile schemeByte, s.drop (s.takeWhile schemeByte).length with
  | [], _ => none
  | c :: cs, 58 :: 47 :: 47 :: r =>
    if isAlphaB c then parseAfterScheme ((c :: cs).map lowerB) r else none
  | _, _ => none

/-- Serialization of an optional query: `?q` or nothing. -/
def queryTail : Option (List Nat) → List Nat
  | none => []
  | some q => 63 :: q

/-- Serialization of an optional fragment: `#f` or nothing. -/
def fragTail : Option (List Nat) → List Nat
  | none => []
  | some f => 35 :: f

/-- Serialization of a `Url` (`Url::as_str`). -/
def urlStr (u : Url) : List Nat :=
  u.scheme ++ [58, 47, 47] ++ u.host ++ [47] ++ joinSep [47] u.path ++
    queryTail u.query ++ fragTail u.fragment

/-- A well-formed path segment: no `/ ? #` bytes and not a dot segment. -/
def SegOK (s : List Nat) : Prop :=
  (∀ b ∈ s, ¬ b = 47 ∧ ¬ b = 63 ∧ ¬ b = 35) ∧ ¬ s = [46] ∧ ¬ s = [46, 46]

/-- Well-formedness invariant of parsed URLs: enough structure for the
serialization to parse back to the same value. -/
structure UrlWF (u : Url) : Prop where
  schemeNe : u.scheme ≠ []
  schemeHead : ∀ c cs, u.scheme = c :: cs → isAlphaB c = true
  schemeBytes : ∀ b ∈ u.scheme, schemeByte b = true
  schemeLower : u.scheme.map lowerB = u.scheme
  hostNe : u.host ≠ []
  hostBytes : ∀ b ∈ u.host, notDelim b = true
  hostLower : u.host.map lowerB = u.host
  pathNe : u.path ≠ []
  pathSegs : ∀ s ∈ u.path, SegOK s
  queryBytes : ∀ q, u.query = some q → ∀ b ∈ q, ¬ b = 35

/-- All bytes of a URL are bytes (below 256). -/
structure UrlLt (u : Url) : Prop where
  scheme : ∀ b ∈ u.scheme, b < 256
  host : ∀ b ∈ u.host, b < 256
  path : ∀ s ∈ u.path, ∀ b ∈ s, b < 256
  query : ∀ q, u.query = some q → ∀ b ∈ q, b < 256
  frag : ∀ f, u.fragment = some f → ∀ b ∈ f, b < 256

/-- The path portion of a `Url` as a string (`Url::path`), e.g. `/dir/a.m3u8`. -/
def pathStr (u : Url) : List Nat :=
  47 :: joinSep [47] u.path

/-- Model of `Url::join` (`base.join(input)`) for relative references. -/
def joinUrl (base : Url) (input : List Nat) : Option Url :=
  match input with
  | [] => some { base with fragment := none }
  | 35 :: f => some { base with fragment := some f }
  | 63 :: r =>
    match parseQueryFrag r with
    | (q, fr) => some { base with query := some q, fragment := fr }
  | 47 :: 47 :: r => parseAfterScheme base.scheme r
  | 47 :: r => some (parsePath base.scheme base.host r)
  | _ =>
    let pp := input.takeWhile notQF
    let segs := normPath [] (base.path.dropLast ++ splitOnB 47 pp)
    let qf : Option (List Nat) × Option (List Nat) :=
      match input.drop pp.length with
      | 63 :: r2 =>
        match parseQueryFrag r2 with
        | (q, fr) => (some q, fr)
      | 35 :: r2 => (none, some r2)
      | _ => (none, none)
    some ⟨base.scheme, base.host, segs, qf.1, qf.2⟩

/-- Model of `get_url` (src/main.rs:64-70): try to parse the line as an
absolute URL, else join it onto the base. -/
def get_url (line : List Nat) (base : Url) : Option Url :=
  match parseUrl line with
  | some absolute => some absolute
  | none => joinUrl base line

/-! ### Percent-encoding (`urlencoding` crate) -/

/-- Bytes `urlencoding::encode` leaves as-is: ASCII alphanumerics and `- _ . ~`. -/
def unreservedB (b : Nat) : Bool :=
  isAlphaB b || isDigitB b || decide (b = 45) || decide (b = 95) ||
    decide (b = 46) || decide (b = 126)

/-- Upper-case hex digit byte for a nibble. -/
def hexDigitB (n : Nat) : Nat :=
  if n < 10 then 48 + n else 55 + n

/-- Value of a hex digit byte (upper- or lower-case). -/
def hexValB (b : Nat) : Option Nat :=
  if 48 ≤ b ∧ b ≤ 57 then some (b - 48)
  else if 65 ≤ b ∧ b ≤ 70 then some (b - 55)
  else if 97 ≤ b ∧ b ≤ 102 then some (b - 87)
  else none

/-- Model of `urlencoding::encode`: every byte that is not unreserved becomes
`%XX` with upper-case hex digits. -/
def percentEncode (l : List Nat) : List Nat :=
  (l.map (fun b =>
    if unreservedB b then [b]
    else [37, hexDigitB (b / 16 % 16), hexDigitB (b % 16)])).flatten

/-- Strict percent-decoding: `%XX` becomes the byte `XX`, other bytes pass
through, a malformed `%` sequence fails. -/
def percentDecode : List Nat → Option (List Nat)
  | [] => some []
  | b :: rest =>
    if b = 37 then
      match rest with
      | h :: l :: rest2 =>
        match hexValB h, hexValB l, percentDecode rest2 with
        | some hv, some lv, some d => some ((16 * hv + lv) :: d)
        | _, _, _ => none
      | _ => none
    else (percentDecode rest).map (b :: ·)

/-- The percent-decoded value of the `url` query parameter of a rewritten
reference `/?url=<encoded>[&...]`. -/
def extractUrlParam (l : List Nat) : Option (List Nat) :=
  if (bytes "/?url=").isPrefixOf l then
    some ((l.drop 6).takeWhile (fun b => !(decide (b = 38))))
  else none

/-! ### Line rewriting machinery -/

/-- ASCII whitespace bytes recognized by `str::trim`. -/
def isWsB (b : Nat) : Bool :=
  decide (b = 32) || decide (9 ≤ b ∧ b ≤ 13)

/-- Model of `line.trim().is_empty()` for ASCII content: every byte is
whitespace. -/
def trimEmpty (l : List Nat) : Bool :=
  l.all isWsB

/-- Model of `str::trim_start_matches`: repeatedly strip a (nonempty) prefix.
Fuelled by the input length; each strip consumes at least one byte. -/
def trimStartMatchesGo (pat : List Nat) : Nat → List Nat → List Nat
  | 0, s => s
  | fuel + 1, s =>
    if pat ≠ [] ∧ pat.isPrefixOf s then
      trimStartMatchesGo pat fuel (s.drop pat.length)
    else s

/-- Repeatedly strip the prefix `pat` from `s` (`str::trim_start_matches`). -/
def trimStartMatches (pat s : List Nat) : List Nat :=
  trimStartMatchesGo pat s.length s

/-- Model of `str::trim_end_matches('"')`: strip all trailing quote bytes. -/
def trimEnd34 (l : List Nat) : List Nat :=
  (l.reverse.dropWhile (fun b => decide (b = 34))).reverse

/-- The literal tag `#EXT-X-MAP:URI="`. -/
def extXMapTag : List Nat := bytes "#EXT-X-MAP:URI=\""

/-- A match of the regex `(?i)(URI|URL)="([^"]+)"` inside a line: the bytes
before the match, the key as written (`URI`/`URL` in any case), the captured
quoted value, and the bytes after the closing quote. -/
structure UriMatch where
  pre : List Nat
  key : List Nat
  url : List Nat
  post : List Nat
deriving DecidableEq

/-- Try to match `(?i)(URI|URL)="` at the head of `l`; on success return the
key bytes and the remainder after the opening quote. -/
def uriKeyAt (l : List Nat) : Option (List Nat × List Nat) :=
  match l with
  | k1 :: k2 :: k3 :: 61 :: 34 :: rest =>
    if lowerB k1 = 117 ∧ lowerB k2 = 114 ∧ (lowerB k3 = 105 ∨ lowerB k3 = 108) then
      some ([k1, k2, k3], rest)
    else none
  | _ => none

/-- Scan for the leftmost match of `(?i)(URI|URL)="([^"]+)"`; `preRev` holds
the already-scanned bytes in reverse. -/
def findUriMatchGo : List Nat → List Nat → Option UriMatch
  | _, [] => none
  | preRev, b :: rest =>
    match uriKeyAt (b :: rest) with
    | some (key, afterQuote) =>
      let val := afterQuote.takeWhile (fun x => !(decide (x = 34)))
      let rest2 := afterQuote.drop val.length
      if val ≠ [] ∧ rest2.head? = some 34 then
        some ⟨preRev.reverse, key, val, rest2.tail⟩
      else findUriMatchGo (b :: preRev) rest
    | none => findUriMatchGo (b :: preRev) rest

/-- Leftmost match of the `URI_REGEX` (src/main.rs:37-39) in a line. -/
def findUriMatch (l : List Nat) : Option UriMatch :=
  findUriMatchGo [] l

/-- Capture-group lookup for `$`-expansion: groups 0, 1, 2 exist, any other
name expands to the empty string. -/
def groupVal (g0 g1 g2 name : List Nat) : List Nat :=
  if name = [48] then g0
  else if name = [49] then g1
  else if name = [50] then g2
  else []

/-- Bytes of a capture-group name in a `$` reference: `A-Z a-z 0-9 _`. -/
def dollarNameByte (b : Nat) : Bool :=
  isAlphaB b || isDigitB b || decide (b = 95)

/-- Model of the `regex` crate's replacement-string expansion: `$$` is a
literal `$`, `$name`/`${name}` is replaced by the capture group of that name
(empty for unknown groups), a `$` not followed by a name stays literal.
Fuelled by the input length; every step consumes at least one byte. -/
def expandGo (g0 g1 g2 : List Nat) : Nat → List Nat → List Nat
  | 0, l => l
  | _ + 1, [] => []
  | fuel + 1, b :: rest =>
    if b = 36 then
      match rest with
      | 36 :: rest2 => 36 :: expandGo g0 g1 g2 fuel rest2
      | 123 :: rest2 =>
        let name := rest2.takeWhile (fun x => !(decide (x = 125)))
        match rest2.drop name.length with
        | 125 :: rest3 => groupVal g0 g1 g2 name ++ expandGo g0 g1 g2 fuel rest3
        | _ => 36 :: expandGo g0 g1 g2 fuel rest
      | _ =>
        let name := rest.takeWhile dollarNameByte
        if name.isEmpty then 36 :: expandGo g0 g1 g2 fuel rest
        else groupVal g0 g1 g2 name ++ expandGo g0 g1 g2 fuel (rest.drop name.length)
    else b :: expandGo g0 g1 g2 fuel rest

/-- Expansion of a replacement string against the capture groups `g0 g1 g2`. -/
def expandDollar (g0 g1 g2 l : List Nat) : List Nat :=
  expandGo g0 g1 g2 l.length l

/-- The `&headers=<original JSON>` suffix appended to a rewritten query when
the request carried a `headers` parameter (src/main.rs:208-210, 224-226,
242-244). -/
def headersSuffix (hq : Option (List Nat)) : List Nat :=
  match hq with
  | none => []
  | some h => bytes "&headers=" ++ h

/-- The rewritten query `url=<encoded>[&headers=<json>]` built for a resolved
reference. -/
def newQuery (hq : Option (List Nat)) (resolved : Url) : List Nat :=
  bytes "url=" ++ percentEncode (urlStr resolved) ++ headersSuffix hq

/-- Model of the per-line rewrite closure (src/main.rs:197-246).  `hq` is the
raw `headers` query parameter, `base` the parsed target URL. -/
def rewriteLine (hq : Option (List Nat)) (base : Url) (line : List Nat) : List Nat :=
  if line.head? = some 35 ∨ trimEmpty line = true then
    if extXMapTag.isPrefixOf line then
      match get_url (trimEnd34 (trimStartMatches extXMapTag line)) base with
      | none => line
      | some resolved => bytes "#EXT-X-MAP:URI=\"/?" ++ newQuery hq resolved ++ [34]
    else
      match findUriMatch line with
      | none => line
      | some m =>
        match get_url m.url base with
        | none => line
        | some resolved =>
          let g0 := m.key ++ [61, 34] ++ m.url ++ [34]
          m.pre ++
            expandDollar g0 m.key m.url
              (m.key ++ bytes "=\"/?" ++ newQuery hq resolved ++ [34]) ++
            m.post
  else
    match get_url line base with
    | none => line
    | some resolved => bytes "/?" ++ newQuery hq resolved

/-! ### Splitting a body into lines (`str::lines`) -/

/-- Split after every `\n`, keeping the terminator with its chunk; a final
chunk without a terminator is kept as-is (`str::split_inclusive('\n')`). -/
def splitInc : List Nat → List (List Nat)
  | [] => []
  | b :: rest =>
    if b = 10 then [10] :: splitInc rest
    else
      match splitInc rest with
      | [] => [[b]]
      | chunk :: chunks => (b :: chunk) :: chunks

/-- Remove one trailing `\n` or `\r\n` from a chunk. -/
def chompLine (l : List Nat) : List Nat :=
  if l.reverse.head? = some 10 then
    if l.reverse.tail.head? = some 13 then l.reverse.tail.tail.reverse
    else l.reverse.tail.reverse
  else l

/-- Model of `str::lines`: split at `\n`/`\r\n`, no empty final line for a
trailing terminator, a bare final chunk keeps its bytes. -/
def rustLines (l : List Nat) : List (List Nat) :=
  (splitInc l).map chompLine

/-- The rewritten playlist lines (src/main.rs:194-247): at most 200,000 lines,
each rewritten independently. -/
def playlistLines (hq : Option (List Nat)) (base : Url) (body : List Nat) :
    List (List Nat) :=
  ((rustLines body).take 200000).map (rewriteLine hq base)

/-- Join lines with `\n` (`lines.join("\n")`, src/main.rs:252). -/
def joinLF (ls : List (List Nat)) : List Nat :=
  joinSep [10] ls

/-! ### Request handling (`m3u8_proxy`, src/main.rs:96-263) -/

/-- The fixed allow-list `ALLOWED_ORIGINS` (src/main.rs:49-53). -/
def ALLOWED_ORIGINS : List (List Nat) :=
  [bytes "http://localhost:5173", bytes "http://localhost:3000",
    bytes "http://aniwave.at"]

/-- Model of `HeaderValue::to_str` success: every byte is visible ASCII,
space or tab. -/
def headerToStrOk (v : List Nat) : Bool :=
  v.all (fun b => decide ((32 ≤ b ∧ b < 127) ∨ b = 9))

/-- Model of `is_allowed_origin` (src/main.rs:73-94). -/
def is_allowed_origin (enableCors : Bool) (origin referer : Option (List Nat)) :
    Bool :=
  if !enableCors then true
  else
    match origin with
    | some o =>
      if headerToStrOk o then ALLOWED_ORIGINS.contains o else false
    | none =>
      match referer with
      | some r =>
        if headerToStrOk r then ALLOWED_ORIGINS.any (fun a => a.isPrefixOf r)
        else false
      | none => false

/-- Bytes valid in a header name (`HeaderName::try_from`): HTTP token
characters; upper-case letters are accepted and lower-cased. -/
def validHeaderNameByte (b : Nat) : Bool :=
  isAlphaB b || isDigitB b ||
    decide (b = 33 ∨ b = 35 ∨ b = 36 ∨ b = 37 ∨ b = 38 ∨ b = 39 ∨ b = 42 ∨
      b = 43 ∨ b = 45 ∨ b = 46 ∨ b = 94 ∨ b = 95 ∨ b = 96 ∨ b = 124 ∨ b = 126)

/-- Model of `HeaderName::try_from` success on a nonempty token. -/
def validHeaderName (n : List Nat) : Bool :=
  !n.isEmpty && n.all validHeaderNameByte

/-- Model of `HeaderValue::from_str` success: no control bytes other than
tab, no DEL. -/
def validHeaderValue (v : List Nat) : Bool :=
  v.all (fun b => decide ((32 ≤ b ∧ b ≠ 127) ∨ b = 9))

/-- Model of `HeaderMap::insert`: replace the value of an existing name or
append a fresh entry. -/
def insertHeader (hs : List (List Nat × List Nat)) (k v : List Nat) :
    List (List Nat × List Nat) :=
  if hs.any (fun p => decide (p.1 = k)) then
    hs.map (fun p => if p.1 = k then (k, v) else p)
  else hs ++ [(k, v)]

/-- Validate and insert each parsed `headers` entry (src/main.rs:131-138);
header names are lower-cased by `HeaderName`. -/
def buildHeadersGo (acc : List (List Nat × List Nat)) :
    List (List Nat × List Nat) → Except (List Nat) (List (List Nat × List Nat))
  | [] => .ok acc
  | (k, v) :: rest =>
    if validHeaderName k = true ∧ validHeaderValue v = true then
      buildHeadersGo (insertHeader acc (k.map lowerB) v) rest
    else .error (bytes "Invalid header format")

/-- Model of the `headers` JSON processing (src/main.rs:125-142): reject more
than 50 entries, then validate and insert each entry. -/
def buildHeaders (parsed : List (List Nat × List Nat)) :
    Except (List Nat) (List (List Nat × List Nat)) :=
  if parsed.length > 50 then .error (bytes "Too many headers")
  else buildHeadersGo [] parsed

/-- The parsed query parameters (struct `QueryParams`, src/main.rs:56-61). -/
structure QueryParams where
  url : List Nat
  headers : Option (List Nat)
  origin : Option (List Nat)
deriving DecidableEq

/-- An inbound request: the headers the handler reads, the deserialized
query string (`none` models a deserialization failure), and the result of
`serde_json` parsing the `headers` parameter (`none` models a JSON error;
only consulted when `query.headers` is present). -/
structure Req where
  originHdr : Option (List Nat)
  refererHdr : Option (List Nat)
  rangeHdr : Option (List Nat)
  query : Option QueryParams
  headersJson : Option (List (List Nat × List Nat))
deriving DecidableEq

/-- The upstream response as the handler sees it: status, the
`Content-Type` header after `to_str().unwrap_or("")`, and the body text. -/
structure UpstreamResp where
  status : Nat
  contentType : List Nat
  body : List Nat
deriving DecidableEq

/-- An HTTP response emitted by the handler: status, the
`Access-Control-Allow-Origin` header if inserted, the `Content-Type` header
if inserted, and the body. -/
structure HResp where
  status : Nat
  acao : Option (List Nat)
  contentType : Option (List Nat)
  body : List Nat
deriving DecidableEq

/-- The resolved CORS origin echoed in responses (src/main.rs:106-109). -/
def originOf (originHdr : Option (List Nat)) : List Nat :=
  match originHdr with
  | some o => if headerToStrOk o then o else bytes "*"
  | none => bytes "*"

/-- The `headers` query-parameter stage (src/main.rs:125-142). -/
def headerStage (q : QueryParams)
    (hjson : Option (List (List Nat × List Nat))) :
    Except (List Nat) (List (List Nat × List Nat)) :=
  match q.headers with
  | none => .ok []
  | some _ =>
    match hjson with
    | none => .error (bytes "Invalid headers JSON")
    | some parsed => buildHeaders parsed

/-- The `origin` query-parameter stage (src/main.rs:145-150). -/
def originStage (q : QueryParams) (hdrs : List (List Nat × List Nat)) :
    Except (List Nat) (List (List Nat × List Nat)) :=
  match q.origin with
  | none => .ok hdrs
  | some o =>
    if validHeaderValue o then .ok (insertHeader hdrs (bytes "origin") o)
    else .error (bytes "Invalid Origin header")

/-- The `Range` pass-through stage (src/main.rs:153-155). -/
def rangeStage (rangeHdr : Option (List Nat))
    (hdrs : List (List Nat × List Nat)) : List (List Nat × List Nat) :=
  match rangeHdr with
  | some r => insertHeader hdrs (bytes "range") r
  | none => hdrs

/-- The playlist classification (src/main.rs:178-179): target path ends in
`.m3u8`, or the content type contains one of the HLS MIME tokens. -/
def isM3u8Resp (target : Url) (contentType : List Nat) : Bool :=
  decide ((bytes ".m3u8") <:+ pathStr target) ||
    [bytes "mpegurl", bytes "application/vnd.apple.mpegurl",
      bytes "application/x-mpegurl"].any
      (fun mime => decide (mime <:+: contentType))

/-- Model of the handler `m3u8_proxy` (src/main.rs:96-263).  The upstream
fetch is modelled by `fetch`, a function from the forwarded header set to
the fetch outcome; it is only applied after every validation stage passed.
The body text is taken as the upstream body bytes (a `resp.text()` read
error is not modelled). -/
def m3u8_proxy (enableCors : Bool) (req : Req)
    (fetch : List (List Nat × List Nat) → Except (List Nat) UpstreamResp) :
    HResp :=
  if is_allowed_origin enableCors req.originHdr req.refererHdr = false then
    ⟨403, some (bytes "*"), none, bytes "Access denied: Origin not allowed"⟩
  else
    let origin := originOf req.originHdr
    match req.query with
    | none => ⟨400, none, none, bytes "Invalid query parameters"⟩
    | some q =>
      match parseUrl q.url with
      | none => ⟨400, none, none, bytes "Invalid URL format"⟩
      | some target =>
        match headerStage q req.headersJson with
        | .error msg => ⟨400, none, none, msg⟩
        | .ok h1 =>
          match originStage q h1 with
          | .error msg => ⟨400, none, none, msg⟩
          | .ok h2 =>
            match fetch (rangeStage req.rangeHdr h2) with
            | .error e =>
              ⟨500, none, none, bytes "Failed to fetch target URL: " ++ e⟩
            | .ok resp =>
              if isM3u8Resp target resp.contentType then
                if resp.body.length > 10000000 then
                  ⟨400, none, none, bytes "m3u8 file too large"⟩
                else
                  ⟨200, some origin, some (bytes "application/vnd.apple.mpegurl"),
                    joinLF (playlistLines q.headers target resp.body)⟩
              else ⟨resp.status, some origin, some resp.contentType, resp.body⟩

/-! ### List helpers -/

theorem takeWhile_of_all {p : Nat → Bool} :
    ∀ {l : List Nat}, (∀ b ∈ l, p b = true) → l.takeWhile p = l := by
  intro l h
  induction l with
  | nil => rfl
  | cons b rest ih =>
    simp [List.takeWhile_cons, h b (by simp), ih fun x hx => h x (by simp [hx])]

theorem takeWhile_append_stop {p : Nat → Bool} {a r : List Nat} {x : Nat}
    (ha : ∀ b ∈ a, p b = true) (hx : p x = false) :
    (a ++ x :: r).takeWhile p = a := by
  induction a with
  | nil => simp [List.takeWhile_cons, hx]
  | cons b rest ih =>
    simp [List.cons_append, List.takeWhile_cons, ha b (by simp),
      ih fun y hy => ha y (by simp [hy])]

theorem drop_len_append (a r : List Nat) : (a ++ r).drop a.length = r := by
  induction a with
  | nil => rfl
  | cons b rest ih => simp [ih]

theorem head_of_takeWhile {p : Nat → Bool} {l cs : List Nat} {c : Nat}
    (h : l.takeWhile p = c :: cs) : l.head? = some c ∧ p c = true := by
  obtain ⟨t, ht⟩ := (h ▸ List.takeWhile_prefix (l := l) (p := p))
  constructor
  · rw [← ht]; rfl
  · exact List.mem_takeWhile_imp (h ▸ List.mem_cons_self c cs)

/-! ### Percent-encoding round trip -/

theorem hexValB_hexDigitB {n : Nat} (h : n < 16) :
    hexValB (hexDigitB n) = some n := by
  interval_cases n <;> rfl

theorem percentEncode_nil : percentEncode [] = [] := rfl

theorem percentEncode_cons (b : Nat) (l : List Nat) :
    percentEncode (b :: l) =
      (if unreservedB b then [b]
        else [37, hexDigitB (b / 16 % 16), hexDigitB (b % 16)]) ++
        percentEncode l := by
  simp [percentEncode]

theorem hexDigitB_range {n : Nat} (h : n < 16) :
    (48 ≤ hexDigitB n ∧ hexDigitB n ≤ 57) ∨ (65 ≤ hexDigitB n ∧ hexDigitB n ≤ 70) := by
  unfold hexDigitB
  split <;> omega

theorem mem_percentEncode {x : Nat} :
    ∀ {l : List Nat}, x ∈ percentEncode l →
      x = 37 ∨ unreservedB x = true ∨ (48 ≤ x ∧ x ≤ 57) ∨ (65 ≤ x ∧ x ≤ 70) := by
  intro l hx
  induction l with
  | nil => simp [percentEncode] at hx
  | cons b rest ih =>
    rw [percentEncode_cons] at hx
    rcases List.mem_append.1 hx with hx | hx
    · by_cases hb : unreservedB b
      · simp [hb] at hx
        subst hx
        exact Or.inr (Or.inl hb)
      · simp [hb] at hx
        rcases hx with hx | hx | hx
        · exact Or.inl hx
        · subst hx
          exact Or.inr (Or.inr (hexDigitB_range (by omega)))
        · subst hx
          exact Or.inr (Or.inr (hexDigitB_range (by omega)))
    · exact ih hx

theorem percentEncode_no_amp {x : Nat} {l : List Nat} (hx : x ∈ percentEncode l) :
    x ≠ 38 := by
  rcases mem_percentEncode hx with h | h | h | h
  · omega
  · intro he; subst he; simp [unreservedB, isAlphaB, isDigitB] at h
  · omega
  · omega

theorem percentEncode_no_dollar {x : Nat} {l : List Nat}
    (hx : x ∈ percentEncode l) : x ≠ 36 := by
  rcases mem_percentEncode hx with h | h | h | h
  · omega
  · intro he; subst he; simp [unreservedB, isAlphaB, isDigitB] at h
  · omega
  · omega

theorem percentDecode_cons_ne {b : Nat} {rest : List Nat} (hb : ¬ b = 37) :
    percentDecode (b :: rest) = (percentDecode rest).map (fun d => b :: d) := by
  rw [percentDecode.eq_def]
  simp [hb]

theorem percentDecode_37 (h l : Nat) (rest : List Nat) :
    percentDecode (37 :: h :: l :: rest) =
      match hexValB h, hexValB l, percentDecode rest with
      | some hv, some lv, some d => some ((16 * hv + lv) :: d)
      | _, _, _ => none := rfl

theorem percentDecode_percentEncode :
    ∀ {l : List Nat}, (∀ b ∈ l, b < 256) → percentDecode (percentEncode l) = some l := by
  intro l hl
  induction l with
  | nil => rfl
  | cons b rest ih =>
    have hrest := ih fun x hx => hl x (by simp [hx])
    have hb : b < 256 := hl b (by simp)
    rw [percentEncode_cons]
    by_cases hu : unreservedB b
    · have hb37 : ¬ b = 37 := by
        intro he; subst he; simp [unreservedB, isAlphaB, isDigitB] at hu
      simp [hu, percentDecode_cons_ne hb37, hrest]
    · have h1 : b / 16 % 16 < 16 := Nat.mod_lt _ (by omega)
      have h2 : b % 16 < 16 := Nat.mod_lt _ (by omega)
      have : (if unreservedB b then [b]
          else [37, hexDigitB (b / 16 % 16), hexDigitB (b % 16)]) ++ percentEncode rest
          = 37 :: hexDigitB (b / 16 % 16) :: hexDigitB (b % 16) :: percentEncode rest := by
        simp [hu]
      rw [this, percentDecode_37, hexValB_hexDigitB h1, hexValB_hexDigitB h2, hrest]
      simp
      omega

/-! ### Byte-class helpers -/

theorem lowerB_lowerB (b : Nat) : lowerB (lowerB b) = lowerB b := by
  unfold lowerB
  split_ifs <;> omega

theorem map_lowerB_idem (l : List Nat) :
    (l.map lowerB).map lowerB = l.map lowerB := by
  rw [List.map_map]
  exact List.map_congr_left fun b _ => lowerB_lowerB b

theorem isAlphaB_lowerB {b : Nat} (h : isAlphaB b = true) :
    isAlphaB (lowerB b) = true := by
  simp [isAlphaB, decide_eq_true_iff] at h ⊢
  unfold lowerB
  split <;> omega

theorem schemeByte_lowerB {b : Nat} (h : schemeByte b = true) :
    schemeByte (lowerB b) = true := by
  simp [schemeByte, isAlphaB, isDigitB, decide_eq_true_iff] at h ⊢
  unfold lowerB
  split <;> omega

theorem notDelim_lowerB {b : Nat} (h : notDelim b = true) :
    notDelim (lowerB b) = true := by
  simp [notDelim, decide_eq_true_iff] at h ⊢
  unfold lowerB
  split <;> omega

theorem lowerB_lt {b : Nat} (h : b < 256) : lowerB b < 256 := by
  unfold lowerB
  split <;> omega

/-! ### splitOnB / joinSep / normPath lemmas -/

theorem splitOnB_nil (c : Nat) : splitOnB c [] = [[]] := rfl

theorem splitOnB_cons (c b : Nat) (l : List Nat) :
    splitOnB c (b :: l) =
      if b = c then [] :: splitOnB c l
      else
        match splitOnB c l with
        | [] => [[b]]
        | chunk :: chunks => (b :: chunk) :: chunks := by
  rw [splitOnB.eq_def]

theorem splitOnB_ne_nil (c : Nat) : ∀ l, splitOnB c l ≠ [] := by
  intro l
  induction l with
  | nil => simp [splitOnB_nil]
  | cons b rest ih =>
    rw [splitOnB_cons]
    split
    · simp
    · cases h : splitOnB c rest <;> simp

theorem mem_splitOnB {c x : Nat} :
    ∀ {l chunk : List Nat}, chunk ∈ splitOnB c l → x ∈ chunk → x ∈ l ∧ ¬ x = c := by
  intro l
  induction l with
  | nil =>
    intro chunk hc hx
    simp [splitOnB] at hc
    subst hc
    simp at hx
  | cons b rest ih =>
    intro chunk hc hx
    rw [splitOnB_cons] at hc
    by_cases hb : b = c
    · simp [hb] at hc
      rcases hc with hc | hc
      · subst hc; simp at hx
      · have := ih hc hx
        exact ⟨by simp [this.1], this.2⟩
    · simp [hb] at hc
      rcases hchunks : splitOnB c rest with _ | ⟨ch, chs⟩
      · exact absurd hchunks (splitOnB_ne_nil c rest)
      · rw [hchunks] at hc
        simp at hc
        rcases hc with hc | hc
        · subst hc
          rcases List.mem_cons.1 hx with hx | hx
          · subst hx; exact ⟨by simp, hb⟩
          · have := ih (by rw [hchunks]; simp) hx
            exact ⟨by simp [this.1], this.2⟩
        · have := ih (by rw [hchunks]; simp [hc]) hx
          exact ⟨by simp [this.1], this.2⟩

theorem splitOnB_no {c : Nat} : ∀ {x : List Nat}, c ∉ x → splitOnB c x = [x] := by
  intro x hx
  induction x with
  | nil => rfl
  | cons b rest ih =>
    have hb : ¬ b = c := fun h => hx (by simp [h])
    rw [splitOnB_cons, if_neg hb, ih fun h => hx (by simp [h])]

theorem splitOnB_app {c : Nat} :
    ∀ {x t : List Nat}, c ∉ x → splitOnB c (x ++ c :: t) = x :: splitOnB c t := by
  intro x t hx
  induction x with
  | nil => simp [splitOnB]
  | cons b rest ih =>
    have hb : ¬ b = c := fun h => hx (by simp [h])
    simp only [List.cons_append]
    rw [splitOnB_cons, if_neg hb, ih fun h => hx (by simp [h])]

theorem splitOnB_joinSep {c : Nat} :
    ∀ {segs : List (List Nat)}, segs ≠ [] → (∀ s ∈ segs, c ∉ s) →
      splitOnB c (joinSep [c] segs) = segs := by
  intro segs hne hs
  induction segs with
  | nil => exact absurd rfl hne
  | cons x rest ih =>
    rcases rest with _ | ⟨y, ys⟩
    · exact splitOnB_no (hs x (by simp))
    · have : joinSep [c] (x :: y :: ys) = x ++ c :: joinSep [c] (y :: ys) := by
        simp [joinSep]
      rw [this, splitOnB_app (hs x (by simp)),
        ih (by simp) fun s h => hs s (by simp [h])]

theorem mem_joinSep {c b : Nat} :
    ∀ {segs : List (List Nat)}, b ∈ joinSep [c] segs →
      b = c ∨ ∃ s ∈ segs, b ∈ s := by
  intro segs hb
  induction segs with
  | nil => simp [joinSep] at hb
  | cons x rest ih =>
    rcases rest with _ | ⟨y, ys⟩
    · exact Or.inr ⟨x, by simp, by simpa [joinSep] using hb⟩
    · rw [show joinSep [c] (x :: y :: ys) = x ++ c :: joinSep [c] (y :: ys) by
        simp [joinSep]] at hb
      rcases List.mem_append.1 hb with h | h
      · exact Or.inr ⟨x, by simp, h⟩
      · rcases List.mem_cons.1 h with h | h
        · exact Or.inl h
        · rcases ih h with h | ⟨s, hs1, hs2⟩
          · exact Or.inl h
          · exact Or.inr ⟨s, by simp [hs1], hs2⟩

theorem normPath_mem {x : List Nat} :
    ∀ {segs acc : List (List Nat)}, x ∈ normPath acc segs →
      x ∈ acc ∨ (x ∈ segs ∧ ¬ x = [46] ∧ ¬ x = [46, 46]) ∨ x = [] := by
  intro segs
  induction segs with
  | nil =>
    intro acc hx
    unfold normPath at hx
    exact Or.inl (by simpa using hx)
  | cons s rest ih =>
    intro acc hx
    unfold normPath at hx
    by_cases h2 : s = [46, 46]
    · rw [if_pos h2] at hx
      rcases rest with _ | ⟨r0, rs⟩
      · simp at hx
        rcases hx with hx | hx
        · exact Or.inl (List.tail_subset acc hx)
        · exact Or.inr (Or.inr hx)
      · rcases ih hx with hx | hx | hx
        · exact Or.inl (List.tail_subset acc hx)
        · exact Or.inr (Or.inl ⟨by simp [hx.1], hx.2⟩)
        · exact Or.inr (Or.inr hx)
    · rw [if_neg h2] at hx
      by_cases h1 : s = [46]
      · rw [if_pos h1] at hx
        rcases rest with _ | ⟨r0, rs⟩
        · simp at hx
          rcases hx with hx | hx
          · exact Or.inl hx
          · exact Or.inr (Or.inr hx)
        · rcases ih hx with hx | hx | hx
          · exact Or.inl hx
          · exact Or.inr (Or.inl ⟨by simp [hx.1], hx.2⟩)
          · exact Or.inr (Or.inr hx)
      · rw [if_neg h1] at hx
        rcases ih hx with hx | hx | hx
        · rcases List.mem_cons.1 hx with hx | hx
          · exact Or.inr (Or.inl ⟨by simp [hx], by rw [hx]; exact ⟨h1, h2⟩⟩)
          · exact Or.inl hx
        · exact Or.inr (Or.inl ⟨by simp [hx.1], hx.2⟩)
        · exact Or.inr (Or.inr hx)

theorem normPath_ne_nil :
    ∀ {segs acc : List (List Nat)}, ¬ acc = [] ∨ ¬ segs = [] →
      normPath acc segs ≠ [] := by
  intro segs
  induction segs with
  | nil =>
    intro acc h
    unfold normPath
    rcases h with h | h
    · simpa using h
    · exact absurd rfl h
  | cons s rest ih =>
    intro acc _
    unfold normPath
    by_cases h2 : s = [46, 46]
    · rw [if_pos h2]
      rcases rest with _ | ⟨r0, rs⟩
      · simp
      · exact ih (Or.inr (by simp))
    · rw [if_neg h2]
      by_cases h1 : s = [46]
      · rw [if_pos h1]
        rcases rest with _ | ⟨r0, rs⟩
        · simp
        · exact ih (Or.inr (by simp))
      · rw [if_neg h1]
        exact ih (Or.inl (by simp))

theorem normPath_id :
    ∀ {segs acc : List (List Nat)},
      (∀ s ∈ segs, ¬ s = [46, 46] ∧ ¬ s = [46]) →
      normPath acc segs = acc.reverse ++ segs := by
  intro segs
  induction segs with
  | nil => intro acc _; simp [normPath]
  | cons s rest ih =>
    intro acc h
    unfold normPath
    rw [if_neg (h s (by simp)).1, if_neg (h s (by simp)).2,
      ih fun x hx => h x (by simp [hx])]
    simp

/-! ### Parse / serialize round trip -/

theorem parseQueryFrag_exact {q : List Nat} (hq : ∀ b ∈ q, ¬ b = 35) :
    ∀ fr, parseQueryFrag (q ++ fragTail fr) = (q, fr) := by
  intro fr
  have hall : ∀ b ∈ q, (fun x => !(decide (x = 35))) b = true := by
    intro b hb
    simp [hq b hb]
  cases fr with
  | none =>
    simp only [parseQueryFrag, fragTail]
    rw [List.append_nil, takeWhile_of_all hall, List.drop_length]
  | some f =>
    simp only [parseQueryFrag, fragTail]
    rw [takeWhile_append_stop hall (by simp), drop_len_append]

theorem parsePath_exact {sch host : List Nat} {path : List (List Nat)}
    {qy fr : Option (List Nat)} (hpathNe : path ≠ [])
    (hsegs : ∀ s ∈ path, SegOK s)
    (hq : ∀ q, qy = some q → ∀ b ∈ q, ¬ b = 35) :
    parsePath sch host (joinSep [47] path ++ queryTail qy ++ fragTail fr) =
      ⟨sch, host, path, qy, fr⟩ := by
  have hPall : ∀ b ∈ joinSep [47] path, notQF b = true := by
    intro b hb
    rcases mem_joinSep hb with hb | ⟨s, hs, hbs⟩
    · subst hb; rfl
    · have := (hsegs s hs).1 b hbs
      simp [notQF, this.2.1, this.2.2]
  have hsegEq : normPath [] (splitOnB 47 (joinSep [47] path)) = path := by
    rw [splitOnB_joinSep hpathNe fun s hs h47 => ((hsegs s hs).1 47 h47).1 rfl,
      normPath_id fun s hs => ⟨(hsegs s hs).2.2, (hsegs s hs).2.1⟩]
    rfl
  cases hqy : qy with
  | some q =>
    have hshape : joinSep [47] path ++ queryTail (some q) ++ fragTail fr =
        joinSep [47] path ++ 63 :: (q ++ fragTail fr) := by
      simp [queryTail]
    rw [hshape]
    simp only [parsePath]
    rw [takeWhile_append_stop hPall (by simp [notQF]), drop_len_append, hsegEq]
    simp [parseQueryFrag_exact (hq q hqy) fr]
  | none =>
    cases hfr : fr with
    | some f =>
      have hshape : joinSep [47] path ++ queryTail none ++ fragTail (some f) =
          joinSep [47] path ++ 35 :: f := by
        simp [queryTail, fragTail]
      rw [hshape]
      simp only [parsePath]
      rw [takeWhile_append_stop hPall (by simp [notQF]), drop_len_append, hsegEq]
    | none =>
      have hshape : joinSep [47] path ++ queryTail none ++ fragTail none =
          joinSep [47] path := by
        simp [queryTail, fragTail]
      rw [hshape]
      simp only [parsePath]
      rw [takeWhile_of_all hPall, List.drop_length, hsegEq]

theorem parseAfterScheme_exact {sch host : List Nat} {path : List (List Nat)}
    {qy fr : Option (List Nat)} (hhostNe : host ≠ [])
    (hhostBytes : ∀ b ∈ host, notDelim b = true)
    (hhostLower : host.map lowerB = host) (hpathNe : path ≠ [])
    (hsegs : ∀ s ∈ path, SegOK s)
    (hq : ∀ q, qy = some q → ∀ b ∈ q, ¬ b = 35) :
    parseAfterScheme sch
        (host ++ 47 :: (joinSep [47] path ++ queryTail qy ++ fragTail fr)) =
      some ⟨sch, host, path, qy, fr⟩ := by
  have htw : (host ++ 47 :: (joinSep [47] path ++ queryTail qy ++ fragTail fr)).takeWhile
      notDelim = host := takeWhile_append_stop hhostBytes (by rfl)
  unfold parseAfterScheme
  rw [htw, drop_len_append]
  obtain ⟨h0, hs0, hh⟩ := List.exists_cons_of_ne_nil hhostNe
  rw [hh]
  have : (h0 :: hs0).map lowerB = h0 :: hs0 := by rw [← hh]; exact hhostLower
  simp only [this]
  rw [← hh, parsePath_exact hpathNe hsegs hq]

theorem parseQueryFrag_fst (r : List Nat) :
    (parseQueryFrag r).1 = r.takeWhile (fun b => !(decide (b = 35))) := by
  simp only [parseQueryFrag]
  split <;> rfl

theorem parseQueryFrag_snd_subset {r f : List Nat}
    (h : (parseQueryFrag r).2 = some f) : ∀ b ∈ f, b ∈ r := by
  simp only [parseQueryFrag] at h
  split at h
  · simp at h
  · next heq =>
    simp at h
    subst h
    intro b hb
    exact List.drop_subset _ r (heq ▸ List.mem_cons_of_mem _ hb)

theorem parsePath_wf {sch host r : List Nat} (hschNe : sch ≠ [])
    (hschHead : ∀ c cs, sch = c :: cs → isAlphaB c = true)
    (hschBytes : ∀ b ∈ sch, schemeByte b = true)
    (hschLower : sch.map lowerB = sch) (hhostNe : host ≠ [])
    (hhostBytes : ∀ b ∈ host, notDelim b = true)
    (hhostLower : host.map lowerB = host) :
    UrlWF (parsePath sch host r) := by
  have hsegs : ∀ s ∈ normPath [] (splitOnB 47 (r.takeWhile notQF)), SegOK s := by
    intro s hs
    rcases normPath_mem hs with h | h | h
    · simp at h
    · refine ⟨?_, h.2.1, h.2.2⟩
      intro b hb
      have h47 := mem_splitOnB h.1 hb
      have hqf : notQF b = true := List.mem_takeWhile_imp h47.1
      simp [notQF, decide_eq_true_iff] at hqf
      exact ⟨h47.2, fun e => by simp [e] at hqf, fun e => by simp [e] at hqf⟩
    · subst h
      exact ⟨by simp, by simp, by simp⟩
  have hne : normPath [] (splitOnB 47 (r.takeWhile notQF)) ≠ [] :=
    normPath_ne_nil (Or.inr (splitOnB_ne_nil _ _))
  simp only [parsePath]
  split
  · exact ⟨hschNe, hschHead, hschBytes, hschLower, hhostNe, hhostBytes,
      hhostLower, hne, hsegs, fun q hq => by simp at hq⟩
  · refine ⟨hschNe, hschHead, hschBytes, hschLower, hhostNe, hhostBytes,
      hhostLower, hne, hsegs, fun q hq => ?_⟩
    simp at hq
    subst hq
    rw [parseQueryFrag_fst]
    intro b hb
    have := List.mem_takeWhile_imp hb
    simpa using this
  · exact ⟨hschNe, hschHead, hschBytes, hschLower, hhostNe, hhostBytes,
      hhostLower, hne, hsegs, fun q hq => by simp at hq⟩

theorem parseAfterScheme_wf {sch r : List Nat} {u : Url} (hschNe : sch ≠ [])
    (hschHead : ∀ c cs, sch = c :: cs → isAlphaB c = true)
    (hschBytes : ∀ b ∈ sch, schemeByte b = true)
    (hschLower : sch.map lowerB = sch)
    (h : parseAfterScheme sch r = some u) : UrlWF u := by
  simp only [parseAfterScheme] at h
  split at h
  · simp at h
  · next h0 hs0 heq =>
    have hhostNe : (h0 :: hs0).map lowerB ≠ [] := by simp
    have hhostBytes : ∀ b ∈ (h0 :: hs0).map lowerB, notDelim b = true := by
      intro b hb
      obtain ⟨b0, hb0, rfl⟩ := List.mem_map.1 hb
      exact notDelim_lowerB (List.mem_takeWhile_imp (heq ▸ hb0))
    have hhostLower : ((h0 :: hs0).map lowerB).map lowerB = (h0 :: hs0).map lowerB :=
      map_lowerB_idem _
    split at h
    · simp at h
      subst h
      exact ⟨hschNe, hschHead, hschBytes, hschLower, hhostNe, hhostBytes,
        hhostLower, by simp, by
          intro s hs
          simp at hs
          subst hs
          exact ⟨by simp, by simp, by simp⟩,
        fun q hq => by simp at hq⟩
    · simp at h
      subst h
      exact parsePath_wf hschNe hschHead hschBytes hschLower hhostNe
        hhostBytes hhostLower
    · simp at h
      subst h
      refine ⟨hschNe, hschHead, hschBytes, hschLower, hhostNe, hhostBytes,
        hhostLower, by simp, by
          intro s hs
          simp at hs
          subst hs
          exact ⟨by simp, by simp, by simp⟩,
        fun q hq => ?_⟩
      simp at hq
      subst hq
      rw [parseQueryFrag_fst]
      intro b hb
      have := List.mem_takeWhile_imp hb
      simpa using this
    · simp at h
      subst h
      exact ⟨hschNe, hschHead, hschBytes, hschLower, hhostNe, hhostBytes,
        hhostLower, by simp, by
          intro s hs
          simp at hs
          subst hs
          exact ⟨by simp, by simp, by simp⟩,
        fun q hq => by simp at hq⟩

theorem parseUrl_wf {s : List Nat} {u : Url} (h : parseUrl s = some u) :
    UrlWF u := by
  simp only [parseUrl] at h
  split at h
  · simp at h
  · next c cs r heq1 heq2 =>
    split at h
    · next halpha =>
      have hbytes : ∀ b ∈ (c :: cs).map lowerB, schemeByte b = true := by
        intro b hb
        obtain ⟨b0, hb0, rfl⟩ := List.mem_map.1 hb
        exact schemeByte_lowerB (List.mem_takeWhile_imp (heq1 ▸ hb0))
      refine parseAfterScheme_wf (by simp) ?_ hbytes (map_lowerB_idem _) h
      intro c' cs' hc'
      simp at hc'
      rw [← hc'.1]
      exact isAlphaB_lowerB halpha
    · simp at h
  · simp at h

theorem parsePath_lt {sch host r : List Nat} (hsch : ∀ b ∈ sch, b < 256)
    (hhost : ∀ b ∈ host, b < 256) (hr : ∀ b ∈ r, b < 256) :
    UrlLt (parsePath sch host r) := by
  have hpath : ∀ s ∈ normPath [] (splitOnB 47 (r.takeWhile notQF)), ∀ b ∈ s, b < 256 := by
    intro s hs b hb
    rcases normPath_mem hs with h | h | h
    · simp at h
    · exact hr b (List.IsPrefix.subset (List.takeWhile_prefix _) (mem_splitOnB h.1 hb).1)
    · subst h; simp at hb
  simp only [parsePath]
  split
  · exact ⟨hsch, hhost, hpath, fun q hq => by simp at hq, fun f hf => by simp at hf⟩
  · next r2 heq =>
    refine ⟨hsch, hhost, hpath, fun q hq => ?_, fun f hf => ?_⟩
    · simp at hq
      subst hq
      rw [parseQueryFrag_fst]
      intro b hb
      have hb2 : b ∈ r2 := List.IsPrefix.subset (List.takeWhile_prefix _) hb
      exact hr b (List.drop_subset _ r (heq ▸ List.mem_cons_of_mem _ hb2))
    · simp at hf
      intro b hb
      have hb2 : b ∈ r2 := parseQueryFrag_snd_subset hf b hb
      exact hr b (List.drop_subset _ r (heq ▸ List.mem_cons_of_mem _ hb2))
  · next h0 r2 heq =>
    refine ⟨hsch, hhost, hpath, fun q hq => by simp at hq, fun f hf => ?_⟩
    simp at hf
    subst hf
    intro b hb
    exact hr b (List.drop_subset _ r (heq ▸ List.mem_cons_of_mem _ hb))

theorem parseAfterScheme_lt {sch r : List Nat} {u : Url}
    (hsch : ∀ b ∈ sch, b < 256) (hr : ∀ b ∈ r, b < 256)
    (h : parseAfterScheme sch r = some u) : UrlLt u := by
  simp only [parseAfterScheme] at h
  split at h
  · simp at h
  · next h0 hs0 heq =>
    have hhost : ∀ b ∈ (h0 :: hs0).map lowerB, b < 256 := by
      intro b hb
      obtain ⟨b0, hb0, rfl⟩ := List.mem_map.1 hb
      exact lowerB_lt (hr b0 (List.IsPrefix.subset (List.takeWhile_prefix _) (heq ▸ hb0)))
    have hrest : ∀ b ∈ r.drop (r.takeWhile notDelim).length, b < 256 :=
      fun b hb => hr b (List.drop_subset _ r hb)
    split at h
    · simp at h
      subst h
      exact ⟨hsch, hhost, by intro s hs; simp at hs; subst hs; simp,
        fun q hq => by simp at hq, fun f hf => by simp at hf⟩
    · next r2 heq2 =>
      simp at h
      subst h
      exact parsePath_lt hsch hhost fun b hb =>
        hrest b (heq2 ▸ List.mem_cons_of_mem _ hb)
    · next r2 heq2 =>
      simp at h
      subst h
      refine ⟨hsch, hhost, by intro s hs; simp at hs; subst hs; simp,
        fun q hq => ?_, fun f hf => ?_⟩
      · simp at hq
        subst hq
        rw [parseQueryFrag_fst]
        intro b hb
        have hb2 : b ∈ r2 := List.IsPrefix.subset (List.takeWhile_prefix _) hb
        exact hrest b (heq2 ▸ List.mem_cons_of_mem _ hb2)
      · simp at hf
        intro b hb
        have hb2 : b ∈ r2 := parseQueryFrag_snd_subset hf b hb
        exact hrest b (heq2 ▸ List.mem_cons_of_mem _ hb2)
    · next h1 r2 heq2 =>
      simp at h
      subst h
      refine ⟨hsch, hhost, by intro s hs; simp at hs; subst hs; simp,
        fun q hq => by simp at hq, fun f hf => ?_⟩
      simp at hf
      subst hf
      intro b hb
      exact hrest b (heq2 ▸ List.mem_cons_of_mem _ hb)

theorem parseUrl_lt {s : List Nat} {u : Url} (hs : ∀ b ∈ s, b < 256)
    (h : parseUrl s = some u) : UrlLt u := by
  simp only [parseUrl] at h
  split at h
  · simp at h
  · next c cs r heq1 heq2 =>
    split at h
    · have hsch : ∀ b ∈ (c :: cs).map lowerB, b < 256 := by
        intro b hb
        obtain ⟨b0, hb0, rfl⟩ := List.mem_map.1 hb
        exact lowerB_lt (hs b0 (List.IsPrefix.subset (List.takeWhile_prefix _) (heq1 ▸ hb0)))
      refine parseAfterScheme_lt hsch ?_ h
      intro b hb
      exact hs b (List.drop_subset _ s
        (heq2 ▸ List.mem_cons_of_mem _ (List.mem_cons_of_mem _ (List.mem_cons_of_mem _ hb))))
    · simp at h
  · simp at h

theorem urlStr_lt {u : Url} (h : UrlLt u) : ∀ b ∈ urlStr u, b < 256 := by
  intro b hb
  simp only [urlStr, List.append_assoc, List.mem_append] at hb
  rcases hb with hb | hb | hb | hb | hb | hb | hb
  · exact h.scheme b hb
  · simp at hb; omega
  · exact h.host b hb
  · simp at hb; omega
  · rcases mem_joinSep hb with hb | ⟨sg, hsg, hbs⟩
    · omega
    · exact h.path sg hsg b hbs
  · cases hq : u.query with
    | none => rw [hq] at hb; simp [queryTail] at hb
    | some q =>
      rw [hq] at hb
      simp [queryTail] at hb
      rcases hb with hb | hb
      · omega
      · exact h.query q hq b hb
  · cases hf : u.fragment with
    | none => rw [hf] at hb; simp [fragTail] at hb
    | some f =>
      rw [hf] at hb
      simp [fragTail] at hb
      rcases hb with hb | hb
      · omega
      · exact h.frag f hf b hb

theorem urlStr_reparse {u : Url} (wf : UrlWF u) : parseUrl (urlStr u) = some u := by
  have hshape : urlStr u = u.scheme ++ 58 :: 47 :: 47 ::
      (u.host ++ 47 :: (joinSep [47] u.path ++ queryTail u.query ++ fragTail u.fragment)) := by
    simp [urlStr]
  have htw : (urlStr u).takeWhile schemeByte = u.scheme := by
    rw [hshape]
    exact takeWhile_append_stop wf.schemeBytes (by rfl)
  have hdrop : (urlStr u).drop u.scheme.length = 58 :: 47 :: 47 ::
      (u.host ++ 47 :: (joinSep [47] u.path ++ queryTail u.query ++ fragTail u.fragment)) := by
    rw [hshape, drop_len_append]
  unfold parseUrl
  rw [htw, hdrop]
  obtain ⟨c, cs, hc⟩ := List.exists_cons_of_ne_nil wf.schemeNe
  rw [hc]
  have hmap : (c :: cs).map lowerB = c :: cs := by rw [← hc]; exact wf.schemeLower
  simp only [hmap, wf.schemeHead c cs hc, if_true]
  rw [← hc]
  exact parseAfterScheme_exact wf.hostNe wf.hostBytes wf.hostLower wf.pathNe
    wf.pathSegs wf.queryBytes

theorem isPrefixOf_self_append (l t : List Nat) : l.isPrefixOf (l ++ t) = true := by
  induction l with
  | nil => simp [List.isPrefixOf]
  | cons b rest ih => simp [List.isPrefixOf, ih]

theorem parseUrl_line_shape {line : List Nat} {u : Url}
    (hp : parseUrl line = some u) :
    ¬ line.head? = some 35 ∧ ¬ trimEmpty line = true := by
  have hhead : ∃ c, line.head? = some c ∧ isAlphaB c = true := by
    simp only [parseUrl] at hp
    split at hp
    · simp at hp
    · next c cs r heq1 heq2 =>
      split at hp
      · next halpha => exact ⟨c, (head_of_takeWhile heq1).1, halpha⟩
      · simp at hp
    · simp at hp
  obtain ⟨c, hc, halpha⟩ := hhead
  simp [isAlphaB, decide_eq_true_iff] at halpha
  cases line with
  | nil => simp at hc
  | cons a t =>
    simp at hc
    subst hc
    constructor
    · simp; omega
    · simp [trimEmpty, isWsB, decide_eq_true_iff]
      intro hws
      omega

/-- Claim C1: for every absolute URL appearing as a bare segment-reference
line, the rewritten reference is a `/?url=...` link whose percent-decoded
`url` parameter is exactly the serialization of the resolved reference, and
that serialization reparses as an absolute URL to the same resolved
reference. -/
theorem c1_absolute_url_roundtrip (hq : Option (List Nat)) (base : Url)
    (line : List Nat) (u : Url) (hb : ∀ b ∈ line, b < 256)
    (hp : parseUrl line = some u) :
    (extractUrlParam (rewriteLine hq base line)).bind percentDecode =
        some (urlStr u) ∧
      parseUrl (urlStr u) = some u := by
  obtain ⟨hno35, hnoblank⟩ := parseUrl_line_shape hp
  have hcond : ¬ (line.head? = some 35 ∨ trimEmpty line = true) := by
    intro h
    rcases h with h | h
    · exact hno35 h
    · exact hnoblank h
  have hout : rewriteLine hq base line =
      bytes "/?url=" ++ (percentEncode (urlStr u) ++ headersSuffix hq) := by
    simp only [rewriteLine, get_url]
    rw [if_neg hcond, hp]
    simp only [newQuery]
    rw [show bytes "/?" = [47, 63] from by decide,
      show bytes "url=" = [117, 114, 108, 61] from by decide,
      show bytes "/?url=" = [47, 63, 117, 114, 108, 61] from by decide]
    simp
  have henc_no_amp : ∀ b ∈ percentEncode (urlStr u),
      (fun x => !(decide (x = 38))) b = true := by
    intro b hbm
    simp [percentEncode_no_amp hbm]
  have hextract : extractUrlParam (rewriteLine hq base line) =
      some (percentEncode (urlStr u)) := by
    rw [hout]
    unfold extractUrlParam
    rw [if_pos (isPrefixOf_self_append _ _)]
    have hlen : (bytes "/?url=").length = 6 := rfl
    rw [← hlen, drop_len_append]
    cases hq with
    | none =>
      simp only [headersSuffix, List.append_nil]
      rw [takeWhile_of_all henc_no_amp]
    | some h =>
      have hshape : percentEncode (urlStr u) ++ headersSuffix (some h) =
          percentEncode (urlStr u) ++ 38 :: (bytes "headers=" ++ h) := rfl
      rw [hshape, takeWhile_append_stop henc_no_amp (by simp)]
  constructor
  · rw [hextract]
    simp only [Option.some_bind]
    exact percentDecode_percentEncode (urlStr_lt (parseUrl_lt hb hp))
  · exact urlStr_reparse (parseUrl_wf hp)

/-- Witness for C1 at a concrete absolute segment URL. -/
theorem c1_absolute_url_roundtrip_witness :
    (extractUrlParam (rewriteLine none
          ⟨bytes "http", bytes "example.com", [bytes "a.m3u8"], none, none⟩
          (bytes "https://cdn.example.com/seg1.ts"))).bind percentDecode =
        some (urlStr ⟨bytes "https", bytes "cdn.example.com",
          [bytes "seg1.ts"], none, none⟩) ∧
      parseUrl (urlStr ⟨bytes "https", bytes "cdn.example.com",
          [bytes "seg1.ts"], none, none⟩) =
        some ⟨bytes "https", bytes "cdn.example.com", [bytes "seg1.ts"],
          none, none⟩ :=
  c1_absolute_url_roundtrip none
    ⟨bytes "http", bytes "example.com", [bytes "a.m3u8"], none, none⟩
    (bytes "https://cdn.example.com/seg1.ts")
    ⟨bytes "https", bytes "cdn.example.com", [bytes "seg1.ts"], none, none⟩
    (by decide) (by rfl)

/-- Counterexample to claim C2: the code compares the Content-Type
case-sensitively, so an upper-case `MPEGURL` content type on a non-`.m3u8`
URL is not classified as a playlist although the claim (which lower-cases
the content type before the substring test) says it is. -/
theorem c2_counterexample :
    ¬ (isM3u8Resp ⟨bytes "http", bytes "e.com", [bytes "x"], none, none⟩
          (bytes "MPEGURL") = true ↔
        ((bytes ".m3u8") <:+
            pathStr ⟨bytes "http", bytes "e.com", [bytes "x"], none, none⟩ ∨
          ∃ mime ∈ [bytes "mpegurl", bytes "application/vnd.apple.mpegurl",
            bytes "application/x-mpegurl"],
            mime <:+: ((bytes "MPEGURL").map lowerB))) := by
  decide

/-- Claim C2 (amended): a response is classified as a playlist iff the
target URL's path ends in `.m3u8` or the Content-Type, as received and
compared case-sensitively, contains one of the HLS MIME tokens; in
particular a `.m3u8` path is always a playlist, and the classification is a
total boolean function. -/
theorem c2_classification (target : Url) (ct : List Nat) :
    (isM3u8Resp target ct = true ↔
      ((bytes ".m3u8") <:+ pathStr target ∨
        ∃ mime ∈ [bytes "mpegurl", bytes "application/vnd.apple.mpegurl",
          bytes "application/x-mpegurl"], mime <:+: ct))
    ∧ ((bytes ".m3u8") <:+ pathStr target → isM3u8Resp target ct = true) := by
  constructor
  · simp [isM3u8Resp]
  · intro h
    simp [isM3u8Resp, h]

/-- Witness for C2 at a `.m3u8` URL with an empty content type. -/
theorem c2_classification_witness :
    isM3u8Resp ⟨bytes "http", bytes "example.com", [bytes "a.m3u8"], none,
      none⟩ (bytes "") = true :=
  (c2_classification ⟨bytes "http", bytes "example.com", [bytes "a.m3u8"],
    none, none⟩ (bytes "")).2 (by decide)

/-- Claim C3: with origin restriction enabled, a request whose Origin is
not on the allow-list (or, lacking Origin, whose Referer matches no
allow-list prefix, or that has neither header) is answered 403 with a
permissive `Access-Control-Allow-Origin` and the response does not depend
on the upstream fetch; with restriction disabled the check always allows. -/
theorem c3_origin_gate :
    (∀ (req : Req)
        (f1 f2 : List (List Nat × List Nat) → Except (List Nat) UpstreamResp),
      ((∃ o, req.originHdr = some o ∧ o ∉ ALLOWED_ORIGINS) ∨
        (req.originHdr = none ∧ ∃ r, req.refererHdr = some r ∧
          ∀ a ∈ ALLOWED_ORIGINS, a.isPrefixOf r = false) ∨
        (req.originHdr = none ∧ req.refererHdr = none)) →
      m3u8_proxy true req f1 =
          ⟨403, some (bytes "*"), none,
            bytes "Access denied: Origin not allowed"⟩ ∧
        m3u8_proxy true req f1 = m3u8_proxy true req f2)
    ∧ ∀ origin referer, is_allowed_origin false origin referer = true := by
  constructor
  · intro req f1 f2 hdeny
    have hfalse : is_allowed_origin true req.originHdr req.refererHdr = false := by
      rcases hdeny with ⟨o, ho, hno⟩ | ⟨ho, r, hr, hnr⟩ | ⟨ho, hr⟩
      · rw [is_allowed_origin.eq_def, ho, if_neg (by simp)]
        show (if headerToStrOk o = true then ALLOWED_ORIGINS.contains o
          else false) = false
        by_cases hok : headerToStrOk o = true
        · rw [if_pos hok]
          simpa using hno
        · rw [if_neg hok]
      · rw [is_allowed_origin.eq_def, ho, hr, if_neg (by simp)]
        show (if headerToStrOk r = true then
          ALLOWED_ORIGINS.any (fun a => a.isPrefixOf r) else false) = false
        by_cases hok : headerToStrOk r = true
        · rw [if_pos hok]
          simp only [List.any_eq_false]
          intro a ha
          simp [hnr a ha]
        · rw [if_neg hok]
      · rw [is_allowed_origin.eq_def, ho, hr, if_neg (by simp)]
    have hmain : ∀ f : List (List Nat × List Nat) → Except (List Nat) UpstreamResp,
        m3u8_proxy true req f =
          ⟨403, some (bytes "*"), none,
            bytes "Access denied: Origin not allowed"⟩ := by
      intro f
      simp only [m3u8_proxy]
      rw [hfalse]
      simp
    exact ⟨hmain f1, (hmain f1).trans (hmain f2).symm⟩
  · intro origin referer
    rfl

/-- Witness for C3 at a concrete disallowed Origin and two distinct fetch
outcomes. -/
theorem c3_origin_gate_witness :
    (m3u8_proxy true ⟨some (bytes "http://evil.com"), none, none, none, none⟩
          (fun _ => .error []) =
        ⟨403, some (bytes "*"), none,
          bytes "Access denied: Origin not allowed"⟩ ∧
      m3u8_proxy true ⟨some (bytes "http://evil.com"), none, none, none, none⟩
          (fun _ => .error []) =
        m3u8_proxy true ⟨some (bytes "http://evil.com"), none, none, none, none⟩
          (fun _ => .ok ⟨200, [], []⟩)) ∧
    is_allowed_origin false none none = true :=
  ⟨c3_origin_gate.1 ⟨some (bytes "http://evil.com"), none, none, none, none⟩
      (fun _ => .error []) (fun _ => .ok ⟨200, [], []⟩)
      (Or.inl ⟨bytes "http://evil.com", rfl, by decide⟩),
    c3_origin_gate.2 none none⟩

/-- Claim C4: the rewritten playlist consists of exactly the first
`min n 200000` input lines, each rewritten independently, in order. -/
theorem c4_line_cap_and_order (hq : Option (List Nat)) (base : Url)
    (body : List Nat) :
    (playlistLines hq base body).length = min (rustLines body).length 200000
    ∧ ∀ i, i < 200000 →
        (playlistLines hq base body)[i]? =
          ((rustLines body)[i]?).map (rewriteLine hq base) := by
  constructor
  · simp [playlistLines, Nat.min_comm]
  · intro i hi
    simp [playlistLines, List.getElem?_take, hi]

/-- Witness for C4 on a two-line body at index 0. -/
theorem c4_line_cap_and_order_witness :
    (playlistLines none ⟨bytes "http", bytes "e.com", [bytes "a.m3u8"],
        none, none⟩ (bytes "#EXTM3U\nseg1.ts")).length =
      min (rustLines (bytes "#EXTM3U\nseg1.ts")).length 200000
    ∧ (playlistLines none ⟨bytes "http", bytes "e.com", [bytes "a.m3u8"],
        none, none⟩ (bytes "#EXTM3U\nseg1.ts"))[0]? =
      ((rustLines (bytes "#EXTM3U\nseg1.ts"))[0]?).map
        (rewriteLine none ⟨bytes "http", bytes "e.com", [bytes "a.m3u8"],
          none, none⟩) :=
  ⟨(c4_line_cap_and_order none ⟨bytes "http", bytes "e.com",
      [bytes "a.m3u8"], none, none⟩ (bytes "#EXTM3U\nseg1.ts")).1,
    (c4_line_cap_and_order none ⟨bytes "http", bytes "e.com",
      [bytes "a.m3u8"], none, none⟩ (bytes "#EXTM3U\nseg1.ts")).2 0
      (by decide)⟩

theorem insertHeader_fresh {hs : List (List Nat × List Nat)}
    {k v : List Nat} (h : k ∉ hs.map Prod.fst) :
    insertHeader hs k v = hs ++ [(k, v)] := by
  unfold insertHeader
  rw [if_neg]
  simp only [List.any_eq_true, decide_eq_true_iff, not_exists]
  intro p hp
  exact h (List.mem_map.2 ⟨p, hp.1, hp.2⟩)

theorem buildHeadersGo_fresh :
    ∀ (parsed acc : List (List Nat × List Nat)),
      (∀ p ∈ parsed, validHeaderName p.1 = true ∧ validHeaderValue p.2 = true) →
      (parsed.map (fun p => p.1.map lowerB)).Nodup →
      (∀ p ∈ parsed, (p.1.map lowerB) ∉ acc.map Prod.fst) →
      buildHeadersGo acc parsed =
        .ok (acc ++ parsed.map (fun p => (p.1.map lowerB, p.2))) := by
  intro parsed
  induction parsed with
  | nil => intro acc _ _ _; simp [buildHeadersGo]
  | cons p rest ih =>
    intro acc hvalid hnodup hfresh
    obtain ⟨k, v⟩ := p
    have h0 : ((k, v) :: rest).map (fun p => p.1.map lowerB) =
        (k.map lowerB) :: rest.map (fun p => p.1.map lowerB) := rfl
    rw [h0] at hnodup
    have hcons := List.nodup_cons.1 hnodup
    simp only [buildHeadersGo]
    rw [if_pos (hvalid (k, v) (by simp)),
      insertHeader_fresh (hfresh (k, v) (by simp))]
    rw [ih (acc ++ [(k.map lowerB, v)])
      (fun p hp => hvalid p (by simp [hp]))
      hcons.2
      ?_]
    · simp
    · intro p hp
      simp only [List.map_append, List.mem_append]
      rintro (hmem | hmem)
      · exact hfresh p (by simp [hp]) hmem
      · simp at hmem
        exact hcons.1 (by
          rw [← hmem]
          exact List.mem_map.2 ⟨p, hp, rfl⟩)

/-- Claim C5: a `headers` JSON object of 51 entries is rejected with
BadRequest "Too many headers"; one of 50 valid entries is accepted and its
entries (names lower-cased) populate the forwarded header set. -/
theorem c5_headers_cap :
    (∀ (ec : Bool) (req : Req) (q : QueryParams) (target : Url)
        (hs : List Nat) (parsed : List (List Nat × List Nat))
        (f : List (List Nat × List Nat) → Except (List Nat) UpstreamResp),
      is_allowed_origin ec req.originHdr req.refererHdr = true →
      req.query = some q → parseUrl q.url = some target →
      q.headers = some hs → req.headersJson = some parsed →
      parsed.length = 51 →
      m3u8_proxy ec req f = ⟨400, none, none, bytes "Too many headers"⟩)
    ∧ (∀ parsed : List (List Nat × List Nat),
      parsed.length = 50 →
      (∀ p ∈ parsed, validHeaderName p.1 = true ∧ validHeaderValue p.2 = true) →
      (parsed.map (fun p => p.1.map lowerB)).Nodup →
      buildHeaders parsed =
        .ok (parsed.map (fun p => (p.1.map lowerB, p.2)))) := by
  constructor
  · intro ec req q target hs parsed f hallow hquery hurl hhs hpj hlen
    have hstage : headerStage q req.headersJson =
        .error (bytes "Too many headers") := by
      simp only [headerStage, hhs, hpj, buildHeaders]
      rw [if_pos (by omega)]
    simp [m3u8_proxy, hallow, hquery, hurl, hstage]
  · intro parsed hlen hvalid hnodup
    simp only [buildHeaders]
    rw [if_neg (by omega), buildHeadersGo_fresh parsed [] hvalid hnodup
      (by simp)]
    simp

/-- Witness for C5: a 51-entry object is rejected through the full handler;
a 50-entry object of digit-named headers is accepted. -/
theorem c5_headers_cap_witness :
    m3u8_proxy false
        ⟨none, none, none,
          some ⟨bytes "http://e.com/x", some (bytes "j"), none⟩,
          some ((List.range 51).map (fun i => ([i], ([] : List Nat))))⟩
        (fun _ => .error []) =
      ⟨400, none, none, bytes "Too many headers"⟩
    ∧ buildHeaders ((List.range 50).map
        (fun i => ([48 + i / 10, 48 + i % 10], [118]))) =
      .ok (((List.range 50).map
        (fun i => ([48 + i / 10, 48 + i % 10], [118]))).map
          (fun p => (p.1.map lowerB, p.2))) :=
  ⟨c5_headers_cap.1 false
      ⟨none, none, none,
        some ⟨bytes "http://e.com/x", some (bytes "j"), none⟩,
        some ((List.range 51).map (fun i => ([i], ([] : List Nat))))⟩
      ⟨bytes "http://e.com/x", some (bytes "j"), none⟩
      ⟨bytes "http", bytes "e.com", [bytes "x"], none, none⟩
      (bytes "j") ((List.range 51).map (fun i => ([i], ([] : List Nat))))
      (fun _ => .error []) rfl rfl (by rfl) rfl rfl (by rfl),
    c5_headers_cap.2 ((List.range 50).map
        (fun i => ([48 + i / 10, 48 + i % 10], [118])))
      (by rfl) (by decide) (by decide)⟩

/-- Reduction of the handler on the playlist path: once every validation
stage has passed and the upstream response is classified as a playlist, the
handler is the size-capped rewrite. -/
theorem m3u8_proxy_playlist (ec : Bool) (req : Req) (q : QueryParams)
    (target : Url) (h1 h2 : List (List Nat × List Nat)) (resp : UpstreamResp)
    (f : List (List Nat × List Nat) → Except (List Nat) UpstreamResp)
    (hallow : is_allowed_origin ec req.originHdr req.refererHdr = true)
    (hquery : req.query = some q) (hurl : parseUrl q.url = some target)
    (hhdr : headerStage q req.headersJson = .ok h1)
    (horig : originStage q h1 = .ok h2)
    (hfetch : f (rangeStage req.rangeHdr h2) = .ok resp)
    (hm3u8 : isM3u8Resp target resp.contentType = true) :
    m3u8_proxy ec req f =
      if resp.body.length > 10000000 then
        ⟨400, none, none, bytes "m3u8 file too large"⟩
      else
        ⟨200, some (originOf req.originHdr),
          some (bytes "application/vnd.apple.mpegurl"),
          joinLF (playlistLines q.headers target resp.body)⟩ := by
  simp [m3u8_proxy, hallow, hquery, hurl, hhdr, horig, hfetch, hm3u8]

/-- Claim C6: a playlist body of exactly 10,000,000 bytes is accepted and
rewritten; one of 10,000,001 bytes is rejected with BadRequest
"m3u8 file too large". -/
theorem c6_body_size_cap (ec : Bool) (req : Req) (q : QueryParams)
    (target : Url) (h1 h2 : List (List Nat × List Nat)) (resp : UpstreamResp)
    (f : List (List Nat × List Nat) → Except (List Nat) UpstreamResp)
    (hallow : is_allowed_origin ec req.originHdr req.refererHdr = true)
    (hquery : req.query = some q) (hurl : parseUrl q.url = some target)
    (hhdr : headerStage q req.headersJson = .ok h1)
    (horig : originStage q h1 = .ok h2)
    (hfetch : f (rangeStage req.rangeHdr h2) = .ok resp)
    (hm3u8 : isM3u8Resp target resp.contentType = true) :
    (resp.body.length = 10000000 →
      m3u8_proxy ec req f =
        ⟨200, some (originOf req.originHdr),
          some (bytes "application/vnd.apple.mpegurl"),
          joinLF (playlistLines q.headers target resp.body)⟩)
    ∧ (resp.body.length = 10000001 →
      m3u8_proxy ec req f = ⟨400, none, none, bytes "m3u8 file too large"⟩) := by
  have hred := m3u8_proxy_playlist ec req q target h1 h2 resp f hallow hquery
    hurl hhdr horig hfetch hm3u8
  constructor
  · intro hsize
    rw [hred, if_neg (by omega)]
  · intro hsize
    rw [hred, if_pos (by omega)]

/-- Witness for C6 at bodies of exactly 10,000,000 and 10,000,001 bytes. -/
theorem c6_body_size_cap_witness :
    m3u8_proxy false
        ⟨none, none, none,
          some ⟨bytes "http://e.com/a.m3u8", none, none⟩, none⟩
        (fun _ => .ok ⟨200, [], List.replicate 10000000 35⟩) =
      ⟨200, some (bytes "*"),
        some (bytes "application/vnd.apple.mpegurl"),
        joinLF (playlistLines none
          ⟨bytes "http", bytes "e.com", [bytes "a.m3u8"], none, none⟩
          (List.replicate 10000000 35))⟩
    ∧ m3u8_proxy false
        ⟨none, none, none,
          some ⟨bytes "http://e.com/a.m3u8", none, none⟩, none⟩
        (fun _ => .ok ⟨200, [], List.replicate 10000001 35⟩) =
      ⟨400, none, none, bytes "m3u8 file too large"⟩ :=
  ⟨(c6_body_size_cap false
      ⟨none, none, none, some ⟨bytes "http://e.com/a.m3u8", none, none⟩, none⟩
      ⟨bytes "http://e.com/a.m3u8", none, none⟩
      ⟨bytes "http", bytes "e.com", [bytes "a.m3u8"], none, none⟩ [] []
      ⟨200, [], List.replicate 10000000 35⟩
      (fun _ => .ok ⟨200, [], List.replicate 10000000 35⟩)
      rfl rfl (by rfl) (by rfl) (by rfl) rfl (by decide)).1
      (List.length_replicate 10000000 35),
    (c6_body_size_cap false
      ⟨none, none, none, some ⟨bytes "http://e.com/a.m3u8", none, none⟩, none⟩
      ⟨bytes "http://e.com/a.m3u8", none, none⟩
      ⟨bytes "http", bytes "e.com", [bytes "a.m3u8"], none, none⟩ [] []
      ⟨200, [], List.replicate 10000001 35⟩
      (fun _ => .ok ⟨200, [], List.replicate 10000001 35⟩)
      rfl rfl (by rfl) (by rfl) (by rfl) rfl (by decide)).2
      (List.length_replicate 10000001 35)⟩

/-- Claim C9: a successfully rewritten playlist response has status 200
regardless of the upstream status, Content-Type
`application/vnd.apple.mpegurl`, and the rewritten lines joined by a
newline as its body. -/
theorem c9_playlist_response (ec : Bool) (req : Req) (q : QueryParams)
    (target : Url) (h1 h2 : List (List Nat × List Nat)) (resp : UpstreamResp)
    (f : List (List Nat × List Nat) → Except (List Nat) UpstreamResp)
    (hallow : is_allowed_origin ec req.originHdr req.refererHdr = true)
    (hquery : req.query = some q) (hurl : parseUrl q.url = some target)
    (hhdr : headerStage q req.headersJson = .ok h1)
    (horig : originStage q h1 = .ok h2)
    (hfetch : f (rangeStage req.rangeHdr h2) = .ok resp)
    (hm3u8 : isM3u8Resp target resp.contentType = true)
    (hsize : resp.body.length ≤ 10000000) :
    m3u8_proxy ec req f =
      ⟨200, some (originOf req.originHdr),
        some (bytes "application/vnd.apple.mpegurl"),
        joinLF (playlistLines q.headers target resp.body)⟩ := by
  rw [m3u8_proxy_playlist ec req q target h1 h2 resp f hallow hquery hurl
    hhdr horig hfetch hm3u8, if_neg (by omega)]

/-- Witness for C9 at upstream status 503. -/
theorem c9_playlist_response_witness :
    m3u8_proxy false
        ⟨none, none, none,
          some ⟨bytes "http://e.com/a.m3u8", none, none⟩, none⟩
        (fun _ => .ok ⟨503, [], bytes "#EXTM3U\nseg1.ts"⟩) =
      ⟨200, some (bytes "*"),
        some (bytes "application/vnd.apple.mpegurl"),
        joinLF (playlistLines none
          ⟨bytes "http", bytes "e.com", [bytes "a.m3u8"], none, none⟩
          (bytes "#EXTM3U\nseg1.ts"))⟩ :=
  c9_playlist_response false
    ⟨none, none, none, some ⟨bytes "http://e.com/a.m3u8", none, none⟩, none⟩
    ⟨bytes "http://e.com/a.m3u8", none, none⟩
    ⟨bytes "http", bytes "e.com", [bytes "a.m3u8"], none, none⟩ [] []
    ⟨503, [], bytes "#EXTM3U\nseg1.ts"⟩
    (fun _ => .ok ⟨503, [], bytes "#EXTM3U\nseg1.ts"⟩)
    rfl rfl (by rfl) (by rfl) (by rfl) rfl (by decide) (by decide)

/-- Claim C7: the line `#EXT-X-MAP:URI="init.mp4"` with base
`http://example.com/dir/a.m3u8` (the parse of that URL) and no `headers`
parameter is rewritten to
`#EXT-X-MAP:URI="/?url=http%3A%2F%2Fexample.com%2Fdir%2Finit.mp4"`. -/
theorem c7_ext_x_map_rewrite :
    parseUrl (bytes "http://example.com/dir/a.m3u8") =
        some ⟨bytes "http", bytes "example.com",
          [bytes "dir", bytes "a.m3u8"], none, none⟩
    ∧ rewriteLine none
        ⟨bytes "http", bytes "example.com", [bytes "dir", bytes "a.m3u8"],
          none, none⟩
        (bytes "#EXT-X-MAP:URI=\"init.mp4\"") =
      bytes "#EXT-X-MAP:URI=\"/?url=http%3A%2F%2Fexample.com%2Fdir%2Finit.mp4\"" :=
  ⟨rfl, rfl⟩

/-! ### Dollar expansion and the URI regex -/

theorem expandGo_no_dollar (g0 g1 g2 : List Nat) :
    ∀ (fuel : Nat) (l : List Nat), 36 ∉ l → expandGo g0 g1 g2 fuel l = l := by
  intro fuel
  induction fuel with
  | zero => intro l _; rfl
  | succ n ih =>
    intro l h
    cases l with
    | nil => rfl
    | cons b rest =>
      have hb : ¬ b = 36 := fun e => h (by simp [e])
      simp only [expandGo]
      rw [if_neg hb, ih rest fun e => h (by simp [e])]

theorem expandDollar_no_dollar {g0 g1 g2 l : List Nat} (h : 36 ∉ l) :
    expandDollar g0 g1 g2 l = l :=
  expandGo_no_dollar g0 g1 g2 l.length l h

theorem uriKeyAt_no36 {l key after : List Nat}
    (h : uriKeyAt l = some (key, after)) : 36 ∉ key := by
  unfold uriKeyAt at h
  split at h
  · next k1 k2 k3 rest =>
    split at h
    · next hc =>
      simp at h
      obtain ⟨hk, ha⟩ := h
      subst hk
      intro hmem
      simp at hmem
      rcases hmem with he | he | he <;>
        · subst he
          simp [lowerB] at hc
    · simp at h
  · simp at h

theorem findUriMatchGo_no36 :
    ∀ {l pre : List Nat} {m : UriMatch}, findUriMatchGo pre l = some m →
      36 ∉ m.key := by
  intro l
  induction l with
  | nil => intro pre m h; simp [findUriMatchGo] at h
  | cons b rest ih =>
    intro pre m h
    rw [findUriMatchGo.eq_def] at h
    dsimp only at h
    split at h
    · next key after huk =>
      split at h
      · simp at h
        rw [← h]
        exact uriKeyAt_no36 huk
      · exact ih h
    · exact ih h

theorem findUriMatch_no36 {l : List Nat} {m : UriMatch}
    (h : findUriMatch l = some m) : 36 ∉ m.key :=
  findUriMatchGo_no36 h

theorem rewriteLine_bare {hq : Option (List Nat)} {base : Url}
    {line : List Nat} {u : Url}
    (hbare : ¬ (line.head? = some 35 ∨ trimEmpty line = true))
    (hres : get_url line base = some u) :
    rewriteLine hq base line =
      bytes "/?url=" ++ percentEncode (urlStr u) ++ headersSuffix hq := by
  simp only [rewriteLine]
  rw [if_neg hbare]
  simp only [hres, newQuery]
  rw [show bytes "/?" = [47, 63] from by decide,
    show bytes "url=" = [117, 114, 108, 61] from by decide,
    show bytes "/?url=" = [47, 63, 117, 114, 108, 61] from by decide]
  simp

theorem isPrefixOf_exists {l : List Nat} :
    ∀ {l2 : List Nat}, l.isPrefixOf l2 = true → ∃ t, l2 = l ++ t := by
  induction l with
  | nil => intro l2 _; exact ⟨l2, rfl⟩
  | cons b rest ih =>
    intro l2 h
    cases l2 with
    | nil => simp [List.isPrefixOf] at h
    | cons c t =>
      simp [List.isPrefixOf] at h
      obtain ⟨t2, ht⟩ := h.2
      exact ⟨t2, by rw [← ht, h.1]; rfl⟩

theorem rewriteLine_map {hq : Option (List Nat)} {base : Url}
    {line : List Nat} {u : Url} (hmap : extXMapTag.isPrefixOf line = true)
    (hres : get_url (trimEnd34 (trimStartMatches extXMapTag line)) base =
      some u) :
    rewriteLine hq base line =
      bytes "#EXT-X-MAP:URI=\"/?url=" ++ percentEncode (urlStr u) ++
        headersSuffix hq ++ [34] := by
  have hhead : line.head? = some 35 := by
    obtain ⟨t, ht⟩ := isPrefixOf_exists hmap
    rw [ht]
    rfl
  simp only [rewriteLine]
  rw [if_pos (Or.inl hhead), if_pos hmap]
  simp only [hres, newQuery]
  rw [show bytes "#EXT-X-MAP:URI=\"/?" =
      [35, 69, 88, 84, 45, 88, 45, 77, 65, 80, 58, 85, 82, 73, 61, 34, 47, 63]
      from by decide,
    show bytes "url=" = [117, 114, 108, 61] from by decide,
    show bytes "#EXT-X-MAP:URI=\"/?url=" =
      [35, 69, 88, 84, 45, 88, 45, 77, 65, 80, 58, 85, 82, 73, 61, 34, 47, 63,
        117, 114, 108, 61] from by decide]
  simp

theorem rewriteLine_attr {hq : Option (List Nat)} {base : Url}
    {line : List Nat} {m : UriMatch} {u : Url}
    (hhash : line.head? = some 35 ∨ trimEmpty line = true)
    (hnotmap : extXMapTag.isPrefixOf line = false)
    (hfind : findUriMatch line = some m)
    (hres : get_url m.url base = some u) :
    rewriteLine hq base line =
      m.pre ++
        expandDollar (m.key ++ [61, 34] ++ m.url ++ [34]) m.key m.url
          (m.key ++ bytes "=\"/?" ++ newQuery hq u ++ [34]) ++
        m.post := by
  simp only [rewriteLine]
  rw [if_pos hhash]
  simp only [hnotmap, Bool.false_eq_true, if_false, hfind, hres]

theorem no36_attr_replacement {m : UriMatch} {u : Url} {h : List Nat}
    {line : List Nat} (hfind : findUriMatch line = some m) (hnh : 36 ∉ h) :
    36 ∉ (m.key ++ bytes "=\"/?" ++ newQuery (some h) u ++ [34]) := by
  intro hmem
  simp only [newQuery, headersSuffix, List.append_assoc, List.mem_append,
    List.mem_cons, List.not_mem_nil] at hmem
  rcases hmem with hm | hm | hm | hm | hm | hm | hm
  · exact findUriMatch_no36 hfind hm
  · simp [bytes, charUtf8] at hm
  · simp [bytes, charUtf8] at hm
  · exact percentEncode_no_dollar hm rfl
  · simp [bytes, charUtf8] at hm
  · exact hnh hm
  · simp at hm

theorem no36_attr_replacement_none {m : UriMatch} {u : Url}
    {line : List Nat} (hfind : findUriMatch line = some m) :
    36 ∉ (m.key ++ bytes "=\"/?" ++ newQuery none u ++ [34]) := by
  intro hmem
  simp only [newQuery, headersSuffix, List.append_assoc, List.mem_append,
    List.mem_cons, List.not_mem_nil, List.append_nil] at hmem
  rcases hmem with hm | hm | hm | hm | hm
  · exact findUriMatch_no36 hfind hm
  · simp [bytes, charUtf8] at hm
  · simp [bytes, charUtf8] at hm
  · exact percentEncode_no_dollar hm rfl
  · simp at hm

/-- Counterexample to claim C8: with a `headers` JSON containing `$1`, the
`URI="..."` attribute rewrite runs the replacement through the regex
engine's `$`-group expansion, so the emitted `&headers=` blob is
`{"URI":"x"}`, not the original `{"$1":"x"}` verbatim. -/
theorem c8_counterexample :
    rewriteLine (some (bytes "\x7b\"$1\":\"x\"\x7d"))
        ⟨bytes "http", bytes "e.com", [bytes "a.m3u8"], none, none⟩
        (bytes "#EXT-X-KEY:URI=\"k.key\"") =
      bytes
        "#EXT-X-KEY:URI=\"/?url=http%3A%2F%2Fe.com%2Fk.key&headers=\x7b\"URI\":\"x\"\x7d\""
    ∧ ¬ rewriteLine (some (bytes "\x7b\"$1\":\"x\"\x7d"))
        ⟨bytes "http", bytes "e.com", [bytes "a.m3u8"], none, none⟩
        (bytes "#EXT-X-KEY:URI=\"k.key\"") =
      bytes
        "#EXT-X-KEY:URI=\"/?url=http%3A%2F%2Fe.com%2Fk.key&headers=\x7b\"$1\":\"x\"\x7d\"" :=
  ⟨by rfl, by decide⟩

/-- Claim C8 (amended): a rewritten bare segment or `EXT-X-MAP` reference
carries `&headers=` plus the original headers JSON verbatim, and carries no
`&headers=` component when the request had no `headers` parameter; a
rewritten `URI="..."`/`URL="..."` attribute behaves the same provided the
headers JSON contains no `$` byte (the regex replacement applies `$`-group
expansion to it). -/
theorem c8_headers_propagation (h : List Nat) (base : Url) :
    (∀ line u, ¬ (line.head? = some 35 ∨ trimEmpty line = true) →
      get_url line base = some u →
      rewriteLine (some h) base line =
          bytes "/?url=" ++ percentEncode (urlStr u) ++ bytes "&headers=" ++ h
        ∧ rewriteLine none base line =
          bytes "/?url=" ++ percentEncode (urlStr u))
    ∧ (∀ line u, extXMapTag.isPrefixOf line = true →
      get_url (trimEnd34 (trimStartMatches extXMapTag line)) base = some u →
      rewriteLine (some h) base line =
          bytes "#EXT-X-MAP:URI=\"/?url=" ++ percentEncode (urlStr u) ++
            bytes "&headers=" ++ h ++ [34]
        ∧ rewriteLine none base line =
          bytes "#EXT-X-MAP:URI=\"/?url=" ++ percentEncode (urlStr u) ++ [34])
    ∧ (∀ line (m : UriMatch) u,
      (line.head? = some 35 ∨ trimEmpty line = true) →
      extXMapTag.isPrefixOf line = false →
      findUriMatch line = some m → get_url m.url base = some u → 36 ∉ h →
      rewriteLine (some h) base line =
          m.pre ++ m.key ++ bytes "=\"/?url=" ++ percentEncode (urlStr u) ++
            bytes "&headers=" ++ h ++ [34] ++ m.post
        ∧ rewriteLine none base line =
          m.pre ++ m.key ++ bytes "=\"/?url=" ++ percentEncode (urlStr u) ++
            [34] ++ m.post) := by
  refine ⟨fun line u hbare hres => ⟨?_, ?_⟩,
    fun line u hmap hres => ⟨?_, ?_⟩,
    fun line m u hhash hnotmap hfind hres hnh => ⟨?_, ?_⟩⟩
  · rw [rewriteLine_bare hbare hres]
    simp [headersSuffix]
  · rw [rewriteLine_bare hbare hres]
    simp [headersSuffix]
  · rw [rewriteLine_map hmap hres]
    simp [headersSuffix]
  · rw [rewriteLine_map hmap hres]
    simp [headersSuffix]
  · rw [rewriteLine_attr hhash hnotmap hfind hres,
      expandDollar_no_dollar (no36_attr_replacement hfind hnh)]
    simp only [newQuery, headersSuffix]
    rw [show bytes "=\"/?" = [61, 34, 47, 63] from by decide,
      show bytes "url=" = [117, 114, 108, 61] from by decide,
      show bytes "=\"/?url=" = [61, 34, 47, 63, 117, 114, 108, 61] from by
        decide]
    simp
  · rw [rewriteLine_attr hhash hnotmap hfind hres,
      expandDollar_no_dollar (no36_attr_replacement_none hfind)]
    simp only [newQuery, headersSuffix]
    rw [show bytes "=\"/?" = [61, 34, 47, 63] from by decide,
      show bytes "url=" = [117, 114, 108, 61] from by decide,
      show bytes "=\"/?url=" = [61, 34, 47, 63, 117, 114, 108, 61] from by
        decide]
    simp

/-- Witness for C8: one concrete line of each of the three rewritten
shapes, with headers `x`. -/
theorem c8_headers_propagation_witness :
    (rewriteLine (some (bytes "x"))
          ⟨bytes "http", bytes "e.com", [bytes "a.m3u8"], none, none⟩
          (bytes "seg1.ts") =
        bytes "/?url=" ++
          percentEncode (urlStr ⟨bytes "http", bytes "e.com",
            [bytes "seg1.ts"], none, none⟩) ++ bytes "&headers=" ++ bytes "x"
      ∧ rewriteLine none
          ⟨bytes "http", bytes "e.com", [bytes "a.m3u8"], none, none⟩
          (bytes "seg1.ts") =
        bytes "/?url=" ++ percentEncode (urlStr ⟨bytes "http", bytes "e.com",
          [bytes "seg1.ts"], none, none⟩))
    ∧ (rewriteLine (some (bytes "x"))
          ⟨bytes "http", bytes "e.com", [bytes "a.m3u8"], none, none⟩
          (bytes "#EXT-X-MAP:URI=\"init.mp4\"") =
        bytes "#EXT-X-MAP:URI=\"/?url=" ++
          percentEncode (urlStr ⟨bytes "http", bytes "e.com",
            [bytes "init.mp4"], none, none⟩) ++
          bytes "&headers=" ++ bytes "x" ++ [34]
      ∧ rewriteLine none
          ⟨bytes "http", bytes "e.com", [bytes "a.m3u8"], none, none⟩
          (bytes "#EXT-X-MAP:URI=\"init.mp4\"") =
        bytes "#EXT-X-MAP:URI=\"/?url=" ++
          percentEncode (urlStr ⟨bytes "http", bytes "e.com",
            [bytes "init.mp4"], none, none⟩) ++ [34])
    ∧ (rewriteLine (some (bytes "x"))
          ⟨bytes "http", bytes "e.com", [bytes "a.m3u8"], none, none⟩
          (bytes "#EXT-X-KEY:URI=\"k.key\"") =
        bytes "#EXT-X-KEY:" ++ bytes "URI" ++ bytes "=\"/?url=" ++
          percentEncode (urlStr ⟨bytes "http", bytes "e.com",
            [bytes "k.key"], none, none⟩) ++
          bytes "&headers=" ++ bytes "x" ++ [34] ++ []
      ∧ rewriteLine none
          ⟨bytes "http", bytes "e.com", [bytes "a.m3u8"], none, none⟩
          (bytes "#EXT-X-KEY:URI=\"k.key\"") =
        bytes "#EXT-X-KEY:" ++ bytes "URI" ++ bytes "=\"/?url=" ++
          percentEncode (urlStr ⟨bytes "http", bytes "e.com",
            [bytes "k.key"], none, none⟩) ++ [34] ++ []) :=
  ⟨(c8_headers_propagation (bytes "x")
      ⟨bytes "http", bytes "e.com", [bytes "a.m3u8"], none, none⟩).1
      (bytes "seg1.ts")
      ⟨bytes "http", bytes "e.com", [bytes "seg1.ts"], none, none⟩
      (by decide) (by rfl),
    (c8_headers_propagation (bytes "x")
      ⟨bytes "http", bytes "e.com", [bytes "a.m3u8"], none, none⟩).2.1
      (bytes "#EXT-X-MAP:URI=\"init.mp4\"")
      ⟨bytes "http", bytes "e.com", [bytes "init.mp4"], none, none⟩
      (by rfl) (by rfl),
    (c8_headers_propagation (bytes "x")
      ⟨bytes "http", bytes "e.com", [bytes "a.m3u8"], none, none⟩).2.2
      (bytes "#EXT-X-KEY:URI=\"k.key\"")
      ⟨bytes "#EXT-X-KEY:", bytes "URI", bytes "k.key", []⟩
      ⟨bytes "http", bytes "e.com", [bytes "k.key"], none, none⟩
      (by decide) (by rfl) (by rfl) (by rfl) (by decide)⟩

/-! ### Line-terminator semantics of `str::lines` -/

theorem splitInc_nil : splitInc [] = [] := rfl

theorem splitInc_cons (b : Nat) (l : List Nat) :
    splitInc (b :: l) =
      if b = 10 then [10] :: splitInc l
      else
        match splitInc l with
        | [] => [[b]]
        | chunk :: chunks => (b :: chunk) :: chunks := by
  rw [splitInc.eq_def]

theorem splitInc_append_lf {a : List Nat} :
    ∀ {t : List Nat}, 10 ∉ a → splitInc (a ++ 10 :: t) = (a ++ [10]) :: splitInc t := by
  induction a with
  | nil => intro t _; simp [splitInc_cons]
  | cons b rest ih =>
    intro t hna
    have hb : ¬ b = 10 := fun e => hna (by simp [e])
    rw [List.cons_append, splitInc_cons, if_neg hb,
      ih fun e => hna (by simp [e])]
    rfl

theorem splitInc_no_lf {s : List Nat} (hne : s ≠ []) (h : 10 ∉ s) :
    splitInc s = [s] := by
  induction s with
  | nil => exact absurd rfl hne
  | cons b rest ih =>
    have hb : ¬ b = 10 := fun e => h (by simp [e])
    rw [splitInc_cons, if_neg hb]
    rcases rest with _ | ⟨c, cs⟩
    · rw [splitInc_nil]
    · rw [ih (by simp) fun e => h (by simp [e])]

theorem getLast?_mem {l : List Nat} {b : Nat} (h : l.getLast? = some b) :
    b ∈ l := by
  induction l using List.reverseRecOn with
  | nil => simp at h
  | append_singleton xs x _ =>
    rw [List.getLast?_concat] at h
    simp at h
    simp [h]

theorem chomp_crlf (a : List Nat) : chompLine (a ++ [13, 10]) = a := by
  unfold chompLine
  have hrev : (a ++ [13, 10]).reverse = 10 :: 13 :: a.reverse := by simp
  rw [hrev]
  simp

theorem chomp_lf {a : List Nat} (h : a.getLast? ≠ some 13) :
    chompLine (a ++ [10]) = a := by
  unfold chompLine
  have hrev : (a ++ [10]).reverse = 10 :: a.reverse := by simp
  rw [hrev]
  simp [h]

theorem chomp_no_lf {a : List Nat} (h : a.getLast? ≠ some 10) :
    chompLine a = a := by
  unfold chompLine
  simp [h]

theorem rustLines_append {a t : List Nat} (hna : 10 ∉ a) :
    rustLines (a ++ 10 :: t) = chompLine (a ++ [10]) :: rustLines t := by
  unfold rustLines
  rw [splitInc_append_lf hna]
  rfl

theorem exists_first_lf {s : List Nat} (h : 10 ∈ s) :
    ∃ a t, s = a ++ 10 :: t ∧ 10 ∉ a := by
  induction s with
  | nil => simp at h
  | cons b rest ih =>
    by_cases hb : b = 10
    · exact ⟨[], rest, by simp [hb], by simp⟩
    · have : 10 ∈ rest := by
        rcases List.mem_cons.1 h with he | he
        · exact absurd he.symm hb
        · exact he
      obtain ⟨a, t, hs, hna⟩ := ih this
      exact ⟨b :: a, t, by simp [hs], by
        intro hm
        rcases List.mem_cons.1 hm with he | he
        · exact hb he.symm
        · exact hna he⟩

theorem rustLines_trailing_lf :
    ∀ (n : Nat) (s : List Nat), s.length ≤ n → s ≠ [] →
      s.getLast? ≠ some 10 → s.getLast? ≠ some 13 →
      rustLines (s ++ [10]) = rustLines s := by
  intro n
  induction n with
  | zero =>
    intro s hlen hne _ _
    exact absurd (List.eq_nil_of_length_eq_zero (by omega)) hne
  | succ n ih =>
    intro s hlen hne h10 h13
    by_cases hmem : 10 ∈ s
    · obtain ⟨a, t, hs, hna⟩ := exists_first_lf hmem
      have htne : t ≠ [] := by
        intro he
        apply h10
        rw [hs, he]
        exact List.getLast?_concat _
      have hlast : s.getLast? = t.getLast? := by
        rw [hs, show a ++ 10 :: t = (a ++ [10]) ++ t by simp]
        exact List.getLast?_append_of_ne_nil _ htne
      have hsplit : s ++ [10] = a ++ 10 :: (t ++ [10]) := by simp [hs]
      rw [hsplit, rustLines_append hna, hs, rustLines_append hna,
        ih t (by
          have := congrArg List.length hs
          simp at this
          omega) htne (hlast ▸ h10) (hlast ▸ h13)]
    · rw [show s ++ [10] = s ++ 10 :: [] by rfl, rustLines_append hmem,
        chomp_lf h13]
      unfold rustLines
      rw [splitInc_no_lf hne hmem]
      simp [chomp_no_lf h10, rustLines, splitInc_nil]

/-- Claim C10: the rewriter splits on LF and CRLF, rejoins with single LFs
and no trailing terminator: a CRLF-delimited line yields the same lines as
an LF-delimited one, a final trailing newline is dropped, and consequently
the output can differ byte-for-byte from the input even when every line
passes through the rewrite unchanged. -/
theorem c10_line_terminators :
    (∀ a b : List Nat, 10 ∉ a → a.getLast? ≠ some 13 →
      rustLines (a ++ 13 :: 10 :: b) = a :: rustLines b ∧
        rustLines (a ++ 10 :: b) = a :: rustLines b)
    ∧ (∀ s : List Nat, s ≠ [] → s.getLast? ≠ some 10 →
        s.getLast? ≠ some 13 → rustLines (s ++ [10]) = rustLines s)
    ∧ (rustLines (bytes "#EXTM3U\r\n#EXT-X-ENDLIST\n") =
          [bytes "#EXTM3U", bytes "#EXT-X-ENDLIST"]
        ∧ rewriteLine none ⟨bytes "http", bytes "e.com", [bytes "a.m3u8"],
            none, none⟩ (bytes "#EXTM3U") = bytes "#EXTM3U"
        ∧ rewriteLine none ⟨bytes "http", bytes "e.com", [bytes "a.m3u8"],
            none, none⟩ (bytes "#EXT-X-ENDLIST") = bytes "#EXT-X-ENDLIST"
        ∧ joinLF (playlistLines none ⟨bytes "http", bytes "e.com",
            [bytes "a.m3u8"], none, none⟩
            (bytes "#EXTM3U\r\n#EXT-X-ENDLIST\n")) =
          bytes "#EXTM3U\n#EXT-X-ENDLIST"
        ∧ ¬ joinLF (playlistLines none ⟨bytes "http", bytes "e.com",
            [bytes "a.m3u8"], none, none⟩
            (bytes "#EXTM3U\r\n#EXT-X-ENDLIST\n")) =
          bytes "#EXTM3U\r\n#EXT-X-ENDLIST\n") := by
  refine ⟨fun a b hna h13 => ⟨?_, ?_⟩, fun s => rustLines_trailing_lf s.length s le_rfl,
    by rfl, by rfl, by rfl, by rfl, by decide⟩
  · have hna2 : 10 ∉ a ++ [13] := by
      intro hm
      rcases List.mem_append.1 hm with hm | hm
      · exact hna hm
      · simp at hm
    rw [show a ++ 13 :: 10 :: b = (a ++ [13]) ++ 10 :: b by simp,
      rustLines_append hna2,
      show (a ++ [13]) ++ [10] = a ++ [13, 10] by simp, chomp_crlf]
  · rw [rustLines_append hna, chomp_lf h13]

/-- Witness for C10 at concrete line bodies. -/
theorem c10_line_terminators_witness :
    (rustLines (bytes "seg" ++ 13 :: 10 :: bytes "x") =
        bytes "seg" :: rustLines (bytes "x")
      ∧ rustLines (bytes "seg" ++ 10 :: bytes "x") =
        bytes "seg" :: rustLines (bytes "x"))
    ∧ rustLines (bytes "abc" ++ [10]) = rustLines (bytes "abc") :=
  ⟨c10_line_terminators.1 (bytes "seg") (bytes "x") (by decide) (by decide),
    c10_line_terminators.2.1 (bytes "abc") (by decide) (by decide) (by decide)⟩

end RustProxy
